import Mathlib

/-!
unigame-server: registry, cleanup sweep, client teardown, relay and token validation

A shallow embedding of the Go sources `state.go`, `cleanup.go`, `constants.go`,
`utils.go` and `websocketConnection.go`.

* Go maps (`map[string]*Game`, `map[uint32]*Player`) are association lists; a
  well-formed map has pairwise distinct keys (`MapWF`).  Go leaves the iteration
  order of a map unspecified; the list order stands for the order one run takes.
* Go `int` is the 64-bit signed integer of the platforms the server runs on:
  an `Int` with the increment wrapping explicitly (`intInc`).
* Pointers are replaced by the values they address.  A `Client` is identified by
  its connection, a `Hub` by a number.
* The effects a call has on the outside world (channel sends to a Hub, closing a
  transport, starting a Hub) are returned as a list of `Event`s, in program order.
* Byte slices are lists of natural numbers; the functions of the Go library that
  `readPump` and `isValidPlayer` call are written out after their sources.
* `hub.go` is not among the sources: the Hub and the message type constants follow
  the specification and are marked so.

The definitions come first, the lemmas and theorems after them.
-/

namespace Unigame

/-! ## Constants (`constants.go`, `websocketConnection.go`) -/

/-- Period at which the cleanup function is called, in seconds. -/
def cleanupPeriod : Int := 15

/-- Timeout for idle players, as a multiple of the cleanup period. -/
def playerTimeout : Int := 90 / cleanupPeriod

/-- Timeout for game formation, as a multiple of the cleanup period. -/
def gameFormationTimeout : Int := 300 / cleanupPeriod

/-- Size of the buffered `send` channel of a Client. -/
def sentFrameSize : Nat := 10240

/-! ## Go integers -/

/-- Largest value of a Go `int` (64 bit). -/
def maxInt : Int := 2 ^ 63 - 1

/-- Reduction of an integer into the range of a Go `int` (two's complement). -/
def wrapInt (x : Int) : Int := (x + 2 ^ 63) % 2 ^ 64 - 2 ^ 63

/-- The Go statement `x++` on an `int`. -/
def intInc (x : Int) : Int := wrapInt (x + 1)

/-- The Go call `strconv.Itoa(n)`: decimal rendering, with a leading minus sign
for a negative number. -/
def Itoa (n : Int) : String :=
  match n with
  | Int.ofNat m => Nat.repr m
  | Int.negSucc m => "-" ++ Nat.repr (m + 1)

/-! ## Maps as association lists -/

/-- The Go expression `m[k]` together with its presence flag. -/
def mapGet {κ β : Type} [DecidableEq κ] (m : List (κ × β)) (k : κ) : Option β :=
  match m with
  | [] => none
  | (k', v) :: rest => if k' = k then some v else mapGet rest k

/-- The Go statement `m[k] = v`: replaces the value of an existing key in place,
adds the key otherwise. -/
def mapSet {κ β : Type} [DecidableEq κ] (m : List (κ × β)) (k : κ) (v : β) : List (κ × β) :=
  match m with
  | [] => [(k, v)]
  | (k', v') :: rest => if k' = k then (k, v) :: rest else (k', v') :: mapSet rest k v

/-- The Go statement `delete(m, k)`. -/
def mapDelete {κ β : Type} [DecidableEq κ] (m : List (κ × β)) (k : κ) : List (κ × β) :=
  m.filter (fun e => decide (e.1 ≠ k))

/-- The Go call `maps.Keys(m)`. -/
def mapKeys {κ β : Type} (m : List (κ × β)) : List κ := m.map Prod.fst

/-- Well-formedness of a map: no key occurs twice. -/
def MapWF {κ β : Type} (m : List (κ × β)) : Prop := (mapKeys m).Nodup

instance {κ β : Type} [DecidableEq κ] (m : List (κ × β)) : Decidable (MapWF m) :=
  inferInstanceAs (Decidable (mapKeys m).Nodup)

/-! ## Data model (`state.go`, `websocketConnection.go`) -/

/-- Client is a middleman between the websocket connection and the hub.
`player` holds the `Token` of the Player the back-pointer `c.player` addresses
(a Token is never written after the Player is created). -/
structure Client where
  hub : Nat
  conn : Nat
  terminated : Bool
  player : String
  deriving DecidableEq, Repr

/-- The state of one Player. -/
structure Player where
  Token : String
  IdleCount : Int
  Client : Option Client
  deriving DecidableEq, Repr

/-- The state of one game.  The key of `Players` is the player order number;
`Hub` identifies the Hub of the game. -/
structure Game where
  Players : List (Nat × Player)
  IdleCount : Int
  NumPlayers : Int
  Hub : Nat
  deriving DecidableEq, Repr

/-- Map from game tokens to Game structures (the global `games`). -/
abbrev Games := List (String × Game)

/-! ## `makePlayerList` (`state.go`) -/

/-- The Go call `slices.Sort(keys)` on order numbers. -/
def sortKeys (keys : List Nat) : List Nat := keys.insertionSort (fun a b => a ≤ b)

/-- The Go expression `game.Players[key].Token`. -/
def tokenAt (game : Game) (key : Nat) : String :=
  match mapGet game.Players key with
  | some p => p.Token
  | none => ""

/-- Subroutine to make the player list of a game.  The loop state is the pair
`(list, delim)`. -/
def makePlayerList (game : Game) : String :=
  let keys := sortKeys (mapKeys game.Players)
  let loop := keys.foldl
    (fun (st : String × String) key => (st.1 ++ (st.2 ++ tokenAt game key), " ")) ("", "")
  Itoa game.NumPlayers ++ " " ++ loop.1

/-! ## Effects -/

/-- Modelled from the spec: the message type constants (`chatType`,
`gameStateType`, `playerListType`, `lostPlayerType`) are declared in `hub.go`,
which is not among the sources; the spec names them as the values of the leading
type tag ("chat, game-state, player-list, lost-player"). -/
inductive MsgType where
  | chatType
  | gameStateType
  | playerListType
  | lostPlayerType
  deriving DecidableEq, Repr

/-- What a call does to the world outside the registry, in program order. -/
inductive Event where
  /-- The channel send `c.hub.unregister <- c` (the client is named by its connection). -/
  | unregister (hub : Nat) (client : Nat)
  /-- The call `hub.broadcastMessage(msgType, payload)`. -/
  | broadcastMessage (hub : Nat) (msgType : MsgType) (payload : String)
  /-- The call `c.conn.Close()`. -/
  | close (conn : Nat)
  /-- The pair `newHub()` and `go game.Hub.run()`. -/
  | hubStarted (hub : Nat)
  deriving DecidableEq, Repr

/-! ## `Client.Destroy` (`websocketConnection.go`) -/

/-- Destroy closes out the client: returns the client after the call and the
effects of the call. -/
def Client.Destroy (c : Client) : Client × List Event :=
  if c.terminated then
    -- Don't do this multiple times
    (c, [])
  else
    ({ c with terminated := true },
      [Event.unregister c.hub c.conn,
       Event.broadcastMessage c.hub MsgType.lostPlayerType c.player,
       Event.close c.conn])

/-! ## `cleanup` (`cleanup.go`) -/

/-- The statement `if player.Client != nil { player.Client.Destroy() }`. -/
def destroyClient (player : Player) : List Event :=
  match player.Client with
  | some c => c.Destroy.2
  | none => []

/-- The loop `for _, player := range game.Players` of the formation check. -/
def destroyAll (players : List (Nat × Player)) : List Event :=
  players.foldl (fun events e => events ++ destroyClient e.2) []

/-- First part of the loop body of `cleanup`: time out a game that has taken too
long to find enough players.  `none` stands for `delete(games, gameToken)`
followed by `continue`. -/
def formationCheck (game : Game) : Option Game × List Event :=
  if game.NumPlayers = 0 ∨ (game.Players.length : Int) < game.NumPlayers then
    let game := { game with IdleCount := intInc game.IdleCount }
    if game.IdleCount > gameFormationTimeout then
      (none, destroyAll game.Players)
    else
      (some game, [])
  else
    (some { game with IdleCount := 0 }, [])

/-- The loop `for playerOrder, player := range game.Players` of `cleanup`: every
entry is visited once; an entry is either deleted or keeps its key with the
incremented counter. -/
def sweepPlayers : List (Nat × Player) → List (Nat × Player) × List Event
  | [] => ([], [])
  | (playerOrder, player) :: rest =>
    let player := { player with IdleCount := intInc player.IdleCount }
    let (kept, events) := sweepPlayers rest
    if player.IdleCount > playerTimeout then
      (kept, destroyClient player ++ events)
    else
      ((playerOrder, player) :: kept, events)

/-- The body of the loop of `cleanup` for one game: `none` when the game is
deleted from `games`. -/
def cleanupGame (game : Game) : Option Game × List Event :=
  match formationCheck game with
  | (none, events) => (none, events)
  | (some game, events) =>
    let (players, events') := sweepPlayers game.Players
    let game := { game with Players := players }
    if game.Players.length = 0 then
      (none, events ++ events')
    else
      (some game, events ++ events')

/-- Cleanup function, expected to be invoked at regular intervals. -/
def cleanup : Games → Games × List Event
  | [] => ([], [])
  | (gameToken, game) :: rest =>
    let (kept, events) := cleanup rest
    match cleanupGame game with
    | (none, ev) => (kept, ev ++ events)
    | (some game, ev) => ((gameToken, game) :: kept, ev ++ events)

/-- The pong handler installed by `readPump`, `c.player.IdleCount = 0`, for the
client of the player registered under `playerOrder` in game `gameToken`. -/
def pong (games : Games) (gameToken : String) (playerOrder : Nat) : Games :=
  match mapGet games gameToken with
  | none => games
  | some game =>
    match mapGet game.Players playerOrder with
    | none => games
    | some player =>
      mapSet games gameToken
        { game with Players := mapSet game.Players playerOrder { player with IdleCount := 0 } }

end Unigame

namespace Unigame

/-! ## Descriptions and concrete states used in the statements -/

/-- A registry with one game that expects 2 players and has 1, whose client is live. -/
def formingGames : Games :=
  [("cards_table-01",
    { Players := [(1, ⟨"QWxpY2U=:1", 0, some ⟨0, 7, false, "QWxpY2U=:1"⟩⟩)],
      IdleCount := 0, NumPlayers := 2, Hub := 0 })]

/-- One cleanup tick on a registry whose player 1 of `cards_table-01` answered the ping. -/
def tickWithPong (games : Games) : Games := (cleanup (pong games "cards_table-01" 1)).1

/-- The game of `formingGames` after 20 ticks: its idle counter stands at 20. -/
def agedGame : Game :=
  { Players := [(1, ⟨"QWxpY2U=:1", 1, some ⟨0, 7, false, "QWxpY2U=:1"⟩⟩)],
    IdleCount := 20, NumPlayers := 2, Hub := 0 }

/-- A complete game of two players, one of them silent for 6 ticks already. -/
def fullGame : Game :=
  { Players := [(1, ⟨"QWxpY2U=:1", 6, some ⟨3, 8, false, "QWxpY2U=:1"⟩⟩),
                (2, ⟨"Qm9i:2", 2, none⟩)],
    IdleCount := 0, NumPlayers := 2, Hub := 3 }

/-- A complete game whose only player has been silent for 6 ticks. -/
def lastPlayerGame : Game :=
  { Players := [(1, ⟨"QWxpY2U=:1", 6, some ⟨4, 9, false, "QWxpY2U=:1"⟩⟩)],
    IdleCount := 0, NumPlayers := 1, Hub := 4 }

/-- What the per-player sweep does to one Player: `none` when it is deleted. -/
def sweptPlayer (player : Player) : Option Player :=
  if intInc player.IdleCount > playerTimeout then none
  else some { player with IdleCount := intInc player.IdleCount }

/-- The Game that `ensureGameAndPlayer` creates for an unseen token, `hub` being the
new Hub. -/
def newGame (hub : Nat) (numPlayers : Int) : Game :=
  { Players := [], Hub := hub, NumPlayers := numPlayers, IdleCount := 0 }

/-- The Player that `ensureGameAndPlayer` returns for a game found or created. -/
def ensuredPlayer (game : Game) (playerToken : String) (playerOrder : Nat) : Player :=
  match mapGet game.Players playerOrder with
  | none => { Token := playerToken, IdleCount := 0, Client := none }
  | some player => { player with IdleCount := 0 }

/-- The Game that `ensureGameAndPlayer` returns for a game found or created. -/
def ensuredGame (game : Game) (playerToken : String) (playerOrder : Nat) (numPlayers : Int) :
    Game :=
  { (if game.NumPlayers = 0 then { game with NumPlayers := numPlayers } else game) with
    Players := mapSet game.Players playerOrder (ensuredPlayer game playerToken playerOrder) }

end Unigame

namespace Unigame

/-! ## The Hub -/

/-- A framed message on a `send` channel: the type tag and the payload. -/
structure Frame where
  msgType : MsgType
  payload : String
  deriving DecidableEq, Repr

/-- Modelled from the spec: the Hub (`hub.go`) is not among the sources.  The spec
(4.1) gives it the set of currently registered Clients, mutated only by its own
event loop, so that register, unregister and broadcast are totally ordered.  Each
registered client is paired with the frames queued on its bounded `send` channel. -/
structure Hub where
  clients : List (Nat × List Frame)
  deriving DecidableEq, Repr

/-- Modelled from the spec: `register(client)` "adds client to the set", a second
call for the same client being a no-op (4.1; `hub.go` is not among the sources). -/
def Hub.register (h : Hub) (client : Nat) : Hub :=
  match mapGet h.clients client with
  | some _ => h
  | none => { clients := h.clients ++ [(client, [])] }

/-- Modelled from the spec: `unregister(client)` "removes client from the set if
present; never errors if absent" (4.1; `hub.go` is not among the sources). -/
def Hub.unregister (h : Hub) (client : Nat) : Hub :=
  { clients := mapDelete h.clients client }

/-- Modelled from the spec: `broadcastMessage(type, payload)` "builds a framed
message (type tag + payload) and attempts to enqueue it onto every registered
client's outbound queue"; a client whose queue is already full is evicted from the
set (4.1; `hub.go` is not among the sources). -/
def Hub.broadcastMessage (h : Hub) (msgType : MsgType) (payload : String) : Hub :=
  { clients := h.clients.filterMap (fun e =>
      if e.2.length < sentFrameSize then some (e.1, e.2 ++ [⟨msgType, payload⟩]) else none) }

/-- Modelled from the spec: one turn of the event loop of the Hub numbered `id`
("a single serializing loop", 5; `hub.go` is not among the sources).  Events
addressed to another Hub, and those that are not Hub events, leave it as it is. -/
def Hub.handle (id : Nat) (h : Hub) (e : Event) : Hub :=
  match e with
  | Event.unregister hub client => if hub = id then h.unregister client else h
  | Event.broadcastMessage hub msgType payload =>
    if hub = id then h.broadcastMessage msgType payload else h
  | Event.close _ => h
  | Event.hubStarted _ => h

/-- Modelled from the spec: the Hub numbered `id` handling a sequence of events in
order (`hub.go` is not among the sources). -/
def Hub.run (id : Nat) (h : Hub) (events : List Event) : Hub :=
  events.foldl (Hub.handle id) h

/-- The clients registered with a Hub. -/
def Hub.registered (h : Hub) : List Nat := mapKeys h.clients

/-! ## `ensureGameAndPlayer` (`utils.go`) -/

/-- The registry: the global `games`, and the number of Hubs created so far
(`newHub()` yields a Hub that did not exist before: the next number). -/
structure Registry where
  games : Games
  hubs : Nat
  deriving DecidableEq, Repr

/-- Given game and player tokens, make sure that the game and player exist and
return the Game and Player structures.  Returns the registry after the call, the
pair `(game, game.Players[playerOrder])` and the effects of the call. -/
def ensureGameAndPlayer (st : Registry) (gameToken : String) (playerToken : String)
    (playerOrder : Nat) (numPlayers : Int) : Registry × (Game × Player) × List Event :=
  -- game := games[gameToken]; if game == nil { ... }
  let (game, hubs, events) :=
    match mapGet st.games gameToken with
    | some game => (game, st.hubs, ([] : List Event))
    | none =>
      ({ Players := [], Hub := st.hubs, NumPlayers := numPlayers, IdleCount := 0 },
        st.hubs + 1, [Event.hubStarted st.hubs])
  -- if game.NumPlayers == 0 { game.NumPlayers = numPlayers }
  let game := if game.NumPlayers = 0 then { game with NumPlayers := numPlayers } else game
  -- if game.Players[playerOrder] == nil { ... } else { ... }
  let player : Player :=
    match mapGet game.Players playerOrder with
    | none => { Token := playerToken, IdleCount := 0, Client := none }
    | some player => { player with IdleCount := 0 }
  let game := { game with Players := mapSet game.Players playerOrder player }
  ({ games := mapSet st.games gameToken game, hubs := hubs }, (game, player), events)

/-! ## `isValidPlayer` (`utils.go`) -/

/-- The Go call `strings.Split(s, sep)` for a one-character separator: the parts
between the occurrences of `sep`, one more than there are occurrences. -/
def Split (s : List Char) (sep : Char) : List (List Char) :=
  match s with
  | [] => [[]]
  | c :: cs =>
    if c = sep then [] :: Split cs sep
    else
      match Split cs sep with
      | [] => [[c]]
      | part :: parts => (c :: part) :: parts

/-- The value of a string of decimal digits. -/
def digitsValue (digits : List Char) : Nat :=
  digits.foldl (fun n ch => n * 10 + (ch.toNat - 48)) 0

/-- The Go call `strconv.Atoi(s)`, `none` for a non-nil error: an optional sign,
then one or more decimal digits (base 10 is explicit, so no underscores), the value
within the range of `int`. -/
def Atoi (s : List Char) : Option Int :=
  let neg : Bool := match s with
    | '-' :: _ => true
    | _ => false
  let digits : List Char := match s with
    | '-' :: rest => rest
    | '+' :: rest => rest
    | _ => s
  if digits = [] then none
  else if digits.all Char.isDigit then
    let n : Int := if neg then -(digitsValue digits : Int) else (digitsValue digits : Int)
    if -(2 ^ 63) ≤ n ∧ n ≤ maxInt then some n else none
  else none

/-- Check validity of player token.  If valid, the order number is also returned:
`uint32(maybe)` is the value modulo 2^32. -/
def isValidPlayer (player : String) : Nat × Bool :=
  let parts := Split player.data ':'
  if parts.length ≠ 2 then (0, false)
  else
    match Atoi (parts.getD 1 []) with
    | none => (0, false)
    | some maybe => ((maybe % 2 ^ 32).toNat, true)

end Unigame

namespace Unigame

/-! ## Go library functions on byte slices used by `readPump`

A byte is a natural number below 256, a rune a natural number. -/

/-- The constant `utf8.RuneSelf`: bytes below it are single-byte runes. -/
def RuneSelf : Nat := 0x80

/-- The constant `utf8.RuneError`. -/
def RuneError : Nat := 0xFFFD

/-- The constant `utf8.UTFMax`. -/
def UTFMax : Nat := 4

/-- The table `asciiSpace` of package `bytes`: tab, line feed, vertical tab, form
feed, carriage return, space. -/
def asciiSpace (c : Nat) : Bool :=
  c == 9 || c == 10 || c == 11 || c == 12 || c == 13 || c == 32

/-- The Go function `unicode.IsSpace`. -/
def IsSpace (r : Nat) : Bool :=
  if r ≤ 0xFF then
    r == 9 || r == 10 || r == 11 || r == 12 || r == 13 || r == 32 || r == 0x85 || r == 0xA0
  else
    r == 0x1680 || (0x2000 ≤ r && r ≤ 0x200A) || r == 0x2028 || r == 0x2029 || r == 0x202F
      || r == 0x205F || r == 0x3000

/-- The Go function `utf8.RuneStart`: the byte is not a continuation byte. -/
def RuneStart (b : Nat) : Bool := !(0x80 ≤ b && b < 0xC0)

/-- The Go function `utf8.DecodeRune`: the first rune of `p` and its width in bytes;
`(RuneError, 1)` for an invalid encoding, `(RuneError, 0)` for the empty slice.  The
masks and shifts of the source are written as remainders and products. -/
def DecodeRune (p : List Nat) : Nat × Nat :=
  match p with
  | [] => (RuneError, 0)
  | p0 :: _ =>
    if p0 < 0x80 then (p0, 1)
    else if p0 < 0xC2 ∨ 0xF4 < p0 then (RuneError, 1)
    else
      -- the entry of the table `first`: size and accepted range of the second byte
      let sz : Nat := if p0 < 0xE0 then 2 else if p0 < 0xF0 then 3 else 4
      let lo : Nat := if p0 = 0xE0 then 0xA0 else if p0 = 0xF0 then 0x90 else 0x80
      let hi : Nat := if p0 = 0xED then 0x9F else if p0 = 0xF4 then 0x8F else 0xBF
      if p.length < sz then (RuneError, 1)
      else
        let b1 := p.getD 1 0
        if b1 < lo ∨ hi < b1 then (RuneError, 1)
        else if sz ≤ 2 then ((p0 % 32) * 64 + b1 % 64, 2)
        else
          let b2 := p.getD 2 0
          if b2 < 0x80 ∨ 0xBF < b2 then (RuneError, 1)
          else if sz ≤ 3 then ((p0 % 16) * 4096 + (b1 % 64) * 64 + b2 % 64, 3)
          else
            let b3 := p.getD 3 0
            if b3 < 0x80 ∨ 0xBF < b3 then (RuneError, 1)
            else ((p0 % 8) * 262144 + (b1 % 64) * 4096 + (b2 % 64) * 64 + b3 % 64, 4)

/-- The loop `for start--; start >= lim; start-- { if RuneStart(p[start]) { break } }`
of `utf8.DecodeLastRune`, followed by `if start < 0 { start = 0 }`.  The argument
is the value of `start` before the decrement. -/
def scanBack (p : List Nat) (lim : Nat) : Nat → Nat
  | 0 => 0
  | k + 1 =>
    if lim ≤ k then
      if RuneStart (p.getD k 0) then k else scanBack p lim k
    else k

/-- The Go function `utf8.DecodeLastRune`: the last rune of `p` and its width. -/
def DecodeLastRune (p : List Nat) : Nat × Nat :=
  if p.length = 0 then (RuneError, 0)
  else
    let r := p.getD (p.length - 1) 0
    if r < RuneSelf then (r, 1)
    else
      let lim := p.length - UTFMax
      let start := scanBack p lim (p.length - 1)
      let d := DecodeRune (p.drop start)
      if start + d.2 ≠ p.length then (RuneError, 1) else d

/-- The function `indexFunc(s, f, false)` of package `bytes`: the index of the first
rune that does not satisfy `f`, `none` for -1.  `fuel` bounds the number of turns of
the loop; every turn advances `start`, so `s.length` turns are enough. -/
def indexFunc (s : List Nat) (f : Nat → Bool) : Nat → Nat → Option Nat
  | 0, _ => none
  | fuel + 1, start =>
    if start < s.length then
      let d := if s.getD start 0 < RuneSelf then (s.getD start 0, 1) else DecodeRune (s.drop start)
      if f d.1 = false then some start
      else indexFunc s f fuel (start + d.2)
    else none

/-- The function `lastIndexFunc(s, f, false)` of package `bytes`: the index of the
last rune that does not satisfy `f`, `none` for -1.  `fuel` bounds the number of
turns of the loop; every turn lowers `i`, so `s.length` turns are enough. -/
def lastIndexFunc (s : List Nat) (f : Nat → Bool) : Nat → Nat → Option Nat
  | 0, _ => none
  | fuel + 1, i =>
    if 0 < i then
      let d := if s.getD (i - 1) 0 < RuneSelf then (s.getD (i - 1) 0, 1)
        else DecodeLastRune (s.take i)
      if f d.1 = false then some (i - d.2)
      else lastIndexFunc s f fuel (i - d.2)
    else none

/-- The Go function `bytes.TrimLeftFunc`. -/
def TrimLeftFunc (s : List Nat) (f : Nat → Bool) : List Nat :=
  match indexFunc s f (s.length + 1) 0 with
  | none => []
  | some i => s.drop i

/-- The Go function `bytes.TrimRightFunc`. -/
def TrimRightFunc (s : List Nat) (f : Nat → Bool) : List Nat :=
  match lastIndexFunc s f (s.length + 1) s.length with
  | some i =>
    if s.getD i 0 ≥ RuneSelf then s.take (i + (DecodeRune (s.drop i)).2)
    else s.take (i + 1)
  | none => s.take 0

/-- The Go function `bytes.TrimFunc`. -/
def TrimFunc (s : List Nat) (f : Nat → Bool) : List Nat :=
  TrimRightFunc (TrimLeftFunc s f) f

/-- The first loop of `bytes.TrimSpace`: `inl start` when the loop ends at `start`,
`inr start` when it meets a non-ASCII byte at `start`. -/
def trimSpaceStart (s : List Nat) : Nat → Nat → Nat ⊕ Nat
  | 0, start => Sum.inl start
  | fuel + 1, start =>
    if start < s.length then
      if s.getD start 0 ≥ RuneSelf then Sum.inr start
      else if asciiSpace (s.getD start 0) = false then Sum.inl start
      else trimSpaceStart s fuel (start + 1)
    else Sum.inl start

/-- The second loop of `bytes.TrimSpace`: `inl stop` when the loop ends at `stop`,
`inr stop` when it meets a non-ASCII byte at `stop - 1`. -/
def trimSpaceStop (s : List Nat) (start : Nat) : Nat → Nat ⊕ Nat
  | 0 => Sum.inl 0
  | stop + 1 =>
    if start < stop + 1 then
      if s.getD stop 0 ≥ RuneSelf then Sum.inr (stop + 1)
      else if asciiSpace (s.getD stop 0) = false then Sum.inl (stop + 1)
      else trimSpaceStop s start stop
    else Sum.inl (stop + 1)

/-- The Go function `bytes.TrimSpace`: slices off all leading and trailing white
space, as defined by Unicode. -/
def TrimSpace (s : List Nat) : List Nat :=
  match trimSpaceStart s s.length 0 with
  | Sum.inr start => TrimFunc (s.drop start) IsSpace
  | Sum.inl start =>
    match trimSpaceStop s start s.length with
    | Sum.inr stop => TrimFunc ((s.take stop).drop start) IsSpace
    | Sum.inl stop => if start = stop then [] else (s.take stop).drop start

/-- The Go call `bytes.Replace(s, old, new, -1)` for one-byte slices `old` and `new`. -/
def Replace (s : List Nat) (old new : Nat) : List Nat :=
  s.map (fun b => if b = old then new else b)

/-- The variable `newline`, the byte of a line feed. -/
def newline : Nat := 10

/-- The variable `space`, the byte of a space. -/
def space : Nat := 32

/-! ## `readPump` (`websocketConnection.go`) -/

/-- What `c.conn.ReadMessage()` returns: a message, or a non-nil error. -/
inductive ReadResult where
  | message (buffer : List Nat)
  | error
  deriving DecidableEq, Repr

/-- How one turn of the loop of `readPump` ends. -/
inductive PumpStep where
  /-- The send `c.hub.broadcast <- buffer`; the loop goes on. -/
  | broadcast (buffer : List Nat)
  /-- The function returns (the deferred Destroy runs). -/
  | returned
  /-- A run-time panic, which nothing recovers. -/
  | panicked
  deriving DecidableEq, Repr

/-- One turn of the loop of `readPump`.  `chatType` and `gameStateType` are the
constants of that name (declared in `hub.go`, not among the sources). -/
def readPumpStep (chatType gameStateType : Nat) (c : Client) (read : ReadResult) : PumpStep :=
  if c.terminated then PumpStep.returned
  else
    match read with
    | ReadResult.error => PumpStep.returned
    | ReadResult.message buffer =>
      match buffer with
      | [] => PumpStep.panicked
      | msgType :: _ =>
        if msgType = chatType then
          -- For chat, clean up the message a bit as it is supposed to be text
          PumpStep.broadcast (TrimSpace (Replace buffer newline space))
        else if msgType ≠ gameStateType then PumpStep.returned
        else PumpStep.broadcast buffer

/-- The value of `DecodeRune` in terms of the first byte `p0`, the length `n` of the
slice and its next three bytes (0 where the slice has none). -/
def decodeBytes (p0 n b1 b2 b3 : Nat) : Nat × Nat :=
  if p0 < 0x80 then (p0, 1)
  else if p0 < 0xC2 ∨ 0xF4 < p0 then (RuneError, 1)
  else
    let sz : Nat := if p0 < 0xE0 then 2 else if p0 < 0xF0 then 3 else 4
    let lo : Nat := if p0 = 0xE0 then 0xA0 else if p0 = 0xF0 then 0x90 else 0x80
    let hi : Nat := if p0 = 0xED then 0x9F else if p0 = 0xF4 then 0x8F else 0xBF
    if n < sz then (RuneError, 1)
    else if b1 < lo ∨ hi < b1 then (RuneError, 1)
    else if sz ≤ 2 then ((p0 % 32) * 64 + b1 % 64, 2)
    else if b2 < 0x80 ∨ 0xBF < b2 then (RuneError, 1)
    else if sz ≤ 3 then ((p0 % 16) * 4096 + (b1 % 64) * 64 + b2 % 64, 3)
    else if b3 < 0x80 ∨ 0xBF < b3 then (RuneError, 1)
    else ((p0 % 8) * 262144 + (b1 % 64) * 4096 + (b2 % 64) * 64 + b3 % 64, 4)

end Unigame

namespace Unigame

/-! ## Sequences of calls on the registry -/

/-- A call that changes the registry: `ensureGameAndPlayer` with its arguments, or
`cleanup`. -/
inductive Call where
  | ensure (gameToken playerToken : String) (playerOrder : Nat) (numPlayers : Int)
  | cleanup
  deriving DecidableEq, Repr

/-- The registry after one call. -/
def applyCall (st : Registry) (call : Call) : Registry :=
  match call with
  | Call.ensure gameToken playerToken playerOrder numPlayers =>
    (ensureGameAndPlayer st gameToken playerToken playerOrder numPlayers).1
  | Call.cleanup => { st with games := (cleanup st.games).1 }

/-- The registry after a sequence of calls, in order. -/
def runCalls (st : Registry) (calls : List Call) : Registry :=
  calls.foldl applyCall st

/-- The empty registry: `games = make(map[string]*Game)`, no Hub created yet. -/
def emptyRegistry : Registry := { games := [], hubs := 0 }

/-- Well-formedness of a registry: game tokens are pairwise distinct, and in every
game the order numbers are pairwise distinct and there is at least one Player. -/
def RegistryWF (st : Registry) : Prop :=
  MapWF st.games ∧ ∀ gameToken game, (gameToken, game) ∈ st.games →
    MapWF game.Players ∧ game.Players ≠ []

/-- A registry with one complete game: two players expected, both joined and
connected. -/
def completeGames : Games :=
  [("cards_table-05",
    { Players := [(1, ⟨"QWxpY2U=:1", 0, some ⟨6, 11, false, "QWxpY2U=:1"⟩⟩),
                  (2, ⟨"Qm9i:2", 0, some ⟨6, 12, false, "Qm9i:2"⟩⟩)],
      IdleCount := 0, NumPlayers := 2, Hub := 6 })]

/-- One cleanup tick on a registry whose player 1 of `cards_table-05` answered the
ping; player 2 stays silent. -/
def tickOnePong (games : Games) : Games := (cleanup (pong games "cards_table-05" 1)).1

/-- The game of `completeGames` after 27 such ticks: player 2 was evicted at the 7th,
and the idle counter of the game has run up to 20 since. -/
def lonelyGame : Game :=
  { Players := [(1, ⟨"QWxpY2U=:1", 1, some ⟨6, 11, false, "QWxpY2U=:1"⟩⟩)],
    IdleCount := 20, NumPlayers := 2, Hub := 6 }

/-- Three admissions to one game that expects two players. -/
def threeAdmissions : List Call :=
  [Call.ensure "cards_table-06" "QWxpY2U=:1" 1 2,
   Call.ensure "cards_table-06" "Qm9i:2" 2 2,
   Call.ensure "cards_table-06" "Q2Fyb2w=:3" 3 2]

end Unigame

namespace Unigame

/-! ## White space at the end of a byte slice -/

/-- A byte sequence made of white space only: the UTF-8 encodings, one after the
other, of runes that `unicode.IsSpace` accepts, each of which `DecodeRune` reads
whole. -/
inductive SpaceRunes : List Nat → Prop where
  | nil : SpaceRunes []
  | rune (c rest : List Nat) (hne : c ≠ []) (hwhole : (DecodeRune c).2 = c.length)
      (hspace : IsSpace (DecodeRune c).1 = true) (hrest : SpaceRunes rest) :
      SpaceRunes (c ++ rest)

/-- The byte slice does not end with white space: the rune that `DecodeLastRune`
reads at its end is not one that `unicode.IsSpace` accepts. -/
def EndsWithoutSpace (s : List Nat) : Prop := IsSpace (DecodeLastRune s).1 = false

end Unigame

namespace Unigame
theorem playerList_loop_go (game : Game) (ks : List Nat) (acc : String) :
    (ks.foldl (fun (st : String × String) key => (st.1 ++ (st.2 ++ tokenAt game key), " "))
      (acc, " ")).1 = String.intercalate.go acc " " (ks.map (tokenAt game)) := by
  induction ks generalizing acc with
  | nil => rfl
  | cons k ks ih =>
    simp only [List.foldl_cons, List.map_cons, String.intercalate.go]
    rw [ih, String.append_assoc]

theorem playerList_loop (game : Game) (ks : List Nat) :
    (ks.foldl (fun (st : String × String) key => (st.1 ++ (st.2 ++ tokenAt game key), " "))
      ("", "")).1 = " ".intercalate (ks.map (tokenAt game)) := by
  cases ks with
  | nil => rfl
  | cons k ks =>
    simp only [List.foldl_cons, List.map_cons, String.intercalate]
    rw [String.empty_append, String.empty_append]
    exact playerList_loop_go game ks _
end Unigame

namespace Unigame

/-! ## Lemmas on maps -/

theorem mapGet_eq_none_of_not_mem {κ β : Type} [DecidableEq κ] (m : List (κ × β)) (k : κ)
    (h : k ∉ mapKeys m) : mapGet m k = none := by
  induction m with
  | nil => rfl
  | cons e rest ih =>
    obtain ⟨k', v⟩ := e
    simp only [mapKeys, List.map_cons, List.mem_cons, not_or] at h
    simp only [mapGet]
    rw [if_neg (fun hk => h.1 hk.symm)]
    exact ih h.2

theorem mapGet_of_mem {κ β : Type} [DecidableEq κ] (m : List (κ × β)) (k : κ) (v : β)
    (hwf : MapWF m) (h : (k, v) ∈ m) : mapGet m k = some v := by
  induction m with
  | nil => cases h
  | cons e rest ih =>
    obtain ⟨k', v'⟩ := e
    simp only [MapWF, mapKeys, List.map_cons, List.nodup_cons] at hwf
    simp only [mapGet]
    rcases List.mem_cons.mp h with heq | hrest
    · cases heq
      rw [if_pos rfl]
    · have hne : k' ≠ k := by
        intro hk
        apply hwf.1
        rw [hk]
        exact List.mem_map.mpr ⟨(k, v), hrest, rfl⟩
      rw [if_neg hne]
      exact ih hwf.2 hrest

theorem mem_of_mapGet {κ β : Type} [DecidableEq κ] (m : List (κ × β)) (k : κ) (v : β)
    (h : mapGet m k = some v) : (k, v) ∈ m := by
  induction m with
  | nil => cases h
  | cons e rest ih =>
    obtain ⟨k', v'⟩ := e
    simp only [mapGet] at h
    by_cases hk : k' = k
    · rw [if_pos hk] at h
      cases h
      rw [hk]
      exact List.mem_cons_self _ _
    · rw [if_neg hk] at h
      exact List.mem_cons_of_mem _ (ih h)

/-- Lookup in a map whose entries were each dropped or rewritten by `f`. -/
theorem mapGet_filterMap {κ β γ : Type} [DecidableEq κ] (f : β → Option γ)
    (m : List (κ × β)) (hwf : MapWF m) (k : κ) :
    mapGet (m.filterMap (fun e => (f e.2).map (fun v => (e.1, v)))) k
      = (mapGet m k).bind f := by
  induction m with
  | nil => rfl
  | cons e rest ih =>
    obtain ⟨k', v⟩ := e
    simp only [MapWF, mapKeys, List.map_cons, List.nodup_cons] at hwf
    have ih' := ih hwf.2
    by_cases hk : k' = k
    · have hnone : mapGet rest k = none :=
        mapGet_eq_none_of_not_mem rest k (by rw [← hk]; exact hwf.1)
      rw [hnone] at ih'
      cases hf : f v with
      | none =>
        simp only [List.filterMap_cons, hf, Option.map_none', mapGet, if_pos hk, Option.bind]
        rw [ih']
        rfl
      | some w =>
        simp only [List.filterMap_cons, hf, Option.map_some', mapGet, if_pos hk, Option.bind]
    · cases hf : f v with
      | none =>
        simp only [List.filterMap_cons, hf, Option.map_none', mapGet, if_neg hk]
        exact ih'
      | some w =>
        simp only [List.filterMap_cons, hf, Option.map_some', mapGet, if_neg hk]
        exact ih'

/-! ## Lemmas on Go integers -/

theorem intInc_eq (x : Int) (hlo : -(2 ^ 63) ≤ x) (hhi : x < maxInt) : intInc x = x + 1 := by
  unfold intInc wrapInt
  unfold maxInt at hhi
  rw [Int.emod_eq_of_lt (by omega) (by omega)]
  omega

theorem gameFormationTimeout_eq : gameFormationTimeout = 20 := by decide

theorem playerTimeout_eq : playerTimeout = 6 := by decide

/-! ## Lemmas on `cleanup` -/

theorem destroyAll_acc (players : List (Nat × Player)) (acc : List Event) :
    players.foldl (fun events e => events ++ destroyClient e.2) acc
      = acc ++ players.flatMap (fun e => destroyClient e.2) := by
  induction players generalizing acc with
  | nil => simp
  | cons e rest ih =>
    simp only [List.foldl_cons, List.flatMap_cons]
    rw [ih, List.append_assoc]

theorem destroyAll_eq (players : List (Nat × Player)) :
    destroyAll players = players.flatMap (fun e => destroyClient e.2) := by
  unfold destroyAll
  rw [destroyAll_acc]
  rfl

theorem sweepPlayers_fst (players : List (Nat × Player)) :
    (sweepPlayers players).1
      = players.filterMap (fun e => (sweptPlayer e.2).map (fun p => (e.1, p))) := by
  induction players with
  | nil => rfl
  | cons e rest ih =>
    obtain ⟨o, p⟩ := e
    by_cases h : intInc p.IdleCount > playerTimeout
    · have hs : sweptPlayer p = none := if_pos h
      simp only [sweepPlayers, List.filterMap_cons, hs, if_pos h, Option.map_none']
      exact ih
    · have hs : sweptPlayer p = some { p with IdleCount := intInc p.IdleCount } := if_neg h
      simp only [sweepPlayers, List.filterMap_cons, hs, if_neg h, Option.map_some']
      rw [← ih]

theorem sweepPlayers_snd (players : List (Nat × Player)) :
    (sweepPlayers players).2
      = players.flatMap
          (fun e => if intInc e.2.IdleCount > playerTimeout then destroyClient e.2 else []) := by
  induction players with
  | nil => rfl
  | cons e rest ih =>
    obtain ⟨o, p⟩ := e
    simp only [sweepPlayers, List.flatMap_cons]
    by_cases h : intInc p.IdleCount > playerTimeout
    · simp only [if_pos h]
      rw [← ih]
      rfl
    · simp only [if_neg h, List.nil_append]
      exact ih

theorem cleanup_fst (games : Games) :
    (cleanup games).1
      = games.filterMap (fun e => ((cleanupGame e.2).1).map (fun g => (e.1, g))) := by
  induction games with
  | nil => rfl
  | cons e rest ih =>
    obtain ⟨t, g⟩ := e
    simp only [cleanup, List.filterMap_cons]
    rcases hc : cleanupGame g with ⟨_ | g', ev⟩
    · simp only [Option.map_none']
      exact ih
    · simp only [Option.map_some']
      rw [← ih]

theorem cleanup_snd (games : Games) :
    (cleanup games).2 = games.flatMap (fun e => (cleanupGame e.2).2) := by
  induction games with
  | nil => rfl
  | cons e rest ih =>
    obtain ⟨t, g⟩ := e
    simp only [cleanup, List.flatMap_cons]
    rcases hc : cleanupGame g with ⟨_ | g', ev⟩
    · simp only []
      rw [← ih]
    · simp only []
      rw [← ih]

theorem mapGet_cleanup (games : Games) (hwf : MapWF games) (gameToken : String) :
    mapGet (cleanup games).1 gameToken
      = (mapGet games gameToken).bind (fun g => (cleanupGame g).1) := by
  rw [cleanup_fst]
  exact mapGet_filterMap (fun g => (cleanupGame g).1) games hwf gameToken

theorem mapGet_sweepPlayers (players : List (Nat × Player)) (hwf : MapWF players)
    (playerOrder : Nat) :
    mapGet (sweepPlayers players).1 playerOrder
      = (mapGet players playerOrder).bind sweptPlayer := by
  rw [sweepPlayers_fst]
  exact mapGet_filterMap sweptPlayer players hwf playerOrder

theorem events_infix_cleanup (games : Games) (gameToken : String) (game : Game)
    (hmem : (gameToken, game) ∈ games) :
    (cleanupGame game).2 <:+: (cleanup games).2 := by
  rw [cleanup_snd]
  obtain ⟨l1, l2, rfl⟩ := List.append_of_mem hmem
  refine ⟨l1.flatMap (fun e => (cleanupGame e.2).2), l2.flatMap (fun e => (cleanupGame e.2).2), ?_⟩
  simp [List.flatMap_append, List.flatMap_cons]

end Unigame

namespace Unigame

/-- C1: makePlayerList renders NumPlayers in decimal, then one space, then the Tokens
of the Players in ascending order of their order numbers, separated by single spaces;
for NumPlayers 3 and Players 2 ↦ "Qm9i:2", 1 ↦ "QWxpY2U=:1" it is "3 QWxpY2U=:1 Qm9i:2". -/
theorem makePlayerList_format :
    (∀ game : Game,
      (sortKeys (mapKeys game.Players)).Sorted (fun a b => a ≤ b) ∧
      (sortKeys (mapKeys game.Players)).Perm (mapKeys game.Players) ∧
      makePlayerList game = Itoa game.NumPlayers ++ " " ++
        " ".intercalate ((sortKeys (mapKeys game.Players)).map (tokenAt game))) ∧
    (∀ (game : Game) (key : Nat) (p : Player), MapWF game.Players →
      (key, p) ∈ game.Players → tokenAt game key = p.Token) ∧
    makePlayerList
      { Players := [(2, ⟨"Qm9i:2", 0, none⟩), (1, ⟨"QWxpY2U=:1", 0, none⟩)],
        IdleCount := 0, NumPlayers := 3, Hub := 0 } = "3 QWxpY2U=:1 Qm9i:2" := by
  refine ⟨fun game => ⟨List.sorted_insertionSort _ _, List.perm_insertionSort _ _, ?_⟩, ?_,
    by decide⟩
  · unfold makePlayerList
    simp only []
    rw [playerList_loop]
  · intro game key p hwf hmem
    unfold tokenAt
    rw [mapGet_of_mem game.Players key p hwf hmem]

/-- C2: in one cleanup call an incomplete game (NumPlayers = 0, or fewer Players than
NumPlayers) gets its idle counter incremented by one; it is removed by the formation
check exactly when the incremented counter exceeds gameFormationTimeout = 20, and then
Destroy runs on the Client of every Player that has one and the per-player sweep is
skipped; a complete game gets idle counter 0 and passes the formation check.  A game
expecting 2 with 1 Player that answers every ping survives 20 ticks and goes at the 21st. -/
theorem cleanup_formation_check (games : Games) (gameToken : String) (game : Game)
    (hwf : MapWF games) (hmem : (gameToken, game) ∈ games)
    (hrange : -(2 ^ 63) ≤ game.IdleCount ∧ game.IdleCount < maxInt) :
    ((game.NumPlayers = 0 ∨ (game.Players.length : Int) < game.NumPlayers) →
      (((formationCheck game).1 = none ↔ game.IdleCount + 1 > gameFormationTimeout) ∧
       (game.IdleCount + 1 > gameFormationTimeout →
          cleanupGame game = (none, game.Players.flatMap (fun e => destroyClient e.2)) ∧
          mapGet (cleanup games).1 gameToken = none) ∧
       (¬ game.IdleCount + 1 > gameFormationTimeout →
          formationCheck game = (some { game with IdleCount := game.IdleCount + 1 }, [])) ∧
       (∀ game', mapGet (cleanup games).1 gameToken = some game' →
          game'.IdleCount = game.IdleCount + 1))) ∧
    (¬ (game.NumPlayers = 0 ∨ (game.Players.length : Int) < game.NumPlayers) →
      formationCheck game = (some { game with IdleCount := 0 }, []) ∧
      (∀ game', mapGet (cleanup games).1 gameToken = some game' → game'.IdleCount = 0)) ∧
    (cleanupGame game).2 <:+: (cleanup games).2 ∧
    gameFormationTimeout = 20 ∧
    (mapGet (tickWithPong^[20] formingGames) "cards_table-01" ≠ none ∧
      mapGet (tickWithPong^[21] formingGames) "cards_table-01" = none) := by
  have hinc : intInc game.IdleCount = game.IdleCount + 1 := intInc_eq _ hrange.1 hrange.2
  have hget : mapGet (cleanup games).1 gameToken = (cleanupGame game).1 := by
    rw [mapGet_cleanup games hwf, mapGet_of_mem games gameToken game hwf hmem]
    rfl
  refine ⟨fun hinco => ?_, fun hcomp => ?_, events_infix_cleanup games gameToken game hmem,
    gameFormationTimeout_eq, ?_⟩
  · by_cases hover : game.IdleCount + 1 > gameFormationTimeout
    · have hf : formationCheck game = (none, destroyAll game.Players) := by
        unfold formationCheck
        simp only [if_pos hinco, hinc, if_pos hover]
      have hc : cleanupGame game = (none, game.Players.flatMap (fun e => destroyClient e.2)) := by
        unfold cleanupGame
        rw [hf, destroyAll_eq]
      refine ⟨⟨fun _ => hover, fun _ => by rw [hf]⟩, fun _ => ⟨hc, by rw [hget, hc]⟩,
        fun hno => absurd hover hno, ?_⟩
      intro game' hg
      rw [hget, hc] at hg
      cases hg
    · have hf : formationCheck game
          = (some { game with IdleCount := game.IdleCount + 1 }, []) := by
        unfold formationCheck
        simp only [if_pos hinco, hinc, if_neg hover]
      refine ⟨⟨fun h => ?_, fun h => absurd h hover⟩, fun h => absurd h hover, fun _ => hf, ?_⟩
      · rw [hf] at h
        cases h
      · intro game' hg
        rw [hget] at hg
        unfold cleanupGame at hg
        rw [hf] at hg
        simp only [] at hg
        split at hg
        · cases hg
        · cases hg
          rfl
  · have hf : formationCheck game = (some { game with IdleCount := 0 }, []) := by
      unfold formationCheck
      simp only [if_neg hcomp]
    refine ⟨hf, ?_⟩
    intro game' hg
    rw [hget] at hg
    unfold cleanupGame at hg
    rw [hf] at hg
    simp only [] at hg
    split at hg
    · cases hg
    · cases hg
      rfl
  · set_option maxRecDepth 100000 in decide

/-- C2 at a concrete registry: the forming game has reached idle counter 20, the next
cleanup removes it and destroys the client of its player. -/
theorem cleanup_formation_check_witness :
    cleanupGame agedGame
        = (none, [Event.unregister 0 7,
                  Event.broadcastMessage 0 MsgType.lostPlayerType "QWxpY2U=:1",
                  Event.close 7]) ∧
      mapGet (cleanup [("cards_table-01", agedGame)]).1 "cards_table-01" = none :=
  ((cleanup_formation_check [("cards_table-01", agedGame)] "cards_table-01" agedGame
      (by decide) (by decide) (by decide)).1 (by decide)).2.1 (by decide)

end Unigame

namespace Unigame

/-- C3: in one cleanup call, for a game that passes the formation check, each Player's
idle counter is incremented by exactly one; the Player is removed from its game, after
Destroy on its Client if it has one, exactly when the incremented counter exceeds
playerTimeout = 6; a Player that remains in the registry has the counter it had before
plus one (Token and Client unchanged). -/
theorem cleanup_player_sweep (games : Games) (gameToken : String) (game : Game)
    (playerOrder : Nat) (player : Player)
    (hwf : MapWF games) (hwfp : MapWF game.Players)
    (hg : (gameToken, game) ∈ games) (hp : (playerOrder, player) ∈ game.Players)
    (hpass : (formationCheck game).1 ≠ none)
    (hrange : -(2 ^ 63) ≤ player.IdleCount ∧ player.IdleCount < maxInt) :
    (mapGet (sweepPlayers game.Players).1 playerOrder
        = if player.IdleCount + 1 > playerTimeout then none
          else some { player with IdleCount := player.IdleCount + 1 }) ∧
    (player.IdleCount + 1 > playerTimeout →
      (∀ game', mapGet (cleanup games).1 gameToken = some game' →
        mapGet game'.Players playerOrder = none) ∧
      destroyClient player <:+: (cleanup games).2) ∧
    (¬ player.IdleCount + 1 > playerTimeout →
      ∃ game', mapGet (cleanup games).1 gameToken = some game' ∧
        mapGet game'.Players playerOrder
          = some { player with IdleCount := player.IdleCount + 1 }) ∧
    (∀ game' player', mapGet (cleanup games).1 gameToken = some game' →
      mapGet game'.Players playerOrder = some player' →
      player'.IdleCount = player.IdleCount + 1 ∧ player'.IdleCount ≤ playerTimeout ∧
        player'.Token = player.Token ∧ player'.Client = player.Client) ∧
    playerTimeout = 6 := by
  have hinc : intInc player.IdleCount = player.IdleCount + 1 := intInc_eq _ hrange.1 hrange.2
  have hget : mapGet (cleanup games).1 gameToken = (cleanupGame game).1 := by
    rw [mapGet_cleanup games hwf, mapGet_of_mem games gameToken game hwf hg]
    rfl
  have hsw : mapGet (sweepPlayers game.Players).1 playerOrder
      = if player.IdleCount + 1 > playerTimeout then none
        else some { player with IdleCount := player.IdleCount + 1 } := by
    rw [mapGet_sweepPlayers game.Players hwfp, mapGet_of_mem game.Players playerOrder player hwfp hp]
    show sweptPlayer player = _
    unfold sweptPlayer
    rw [hinc]
  -- the game after the formation check has the same Players
  obtain ⟨g1, ev1, hf, hplayers⟩ :
      ∃ g1 ev1, formationCheck game = (some g1, ev1) ∧ g1.Players = game.Players := by
    unfold formationCheck at hpass ⊢
    split
    · rename_i hinco
      rw [if_pos hinco] at hpass
      simp only [] at hpass ⊢
      split
      · rename_i hover
        rw [if_pos hover] at hpass
        exact absurd rfl hpass
      · exact ⟨_, _, rfl, rfl⟩
    · exact ⟨_, _, rfl, rfl⟩
  have hcg : ∀ game', (cleanupGame game).1 = some game' →
      game'.Players = (sweepPlayers game.Players).1 := by
    intro game' h
    unfold cleanupGame at h
    rw [hf] at h
    simp only [hplayers] at h
    split at h
    · cases h
    · cases h
      rfl
  have hev : (sweepPlayers game.Players).2 <:+: (cleanupGame game).2 := by
    unfold cleanupGame
    rw [hf]
    simp only [hplayers]
    split
    · exact ⟨ev1, [], by simp⟩
    · exact ⟨ev1, [], by simp⟩
  refine ⟨hsw, fun hover => ⟨?_, ?_⟩, fun hno => ?_, ?_, playerTimeout_eq⟩
  · intro game' hg'
    rw [hget] at hg'
    rw [hcg game' hg', hsw, if_pos hover]
  · have h1 : destroyClient player <:+: (sweepPlayers game.Players).2 := by
      rw [sweepPlayers_snd]
      obtain ⟨l1, l2, hl⟩ := List.append_of_mem hp
      rw [hl]
      refine ⟨l1.flatMap
          (fun e => if intInc e.2.IdleCount > playerTimeout then destroyClient e.2 else []),
        l2.flatMap
          (fun e => if intInc e.2.IdleCount > playerTimeout then destroyClient e.2 else []), ?_⟩
      simp only [List.flatMap_append, List.flatMap_cons, hinc, if_pos hover, List.append_assoc]
    exact (h1.trans hev).trans (events_infix_cleanup games gameToken game hg)
  · have hne : (sweepPlayers game.Players).1.length ≠ 0 := by
      intro hlen
      have hnil : (sweepPlayers game.Players).1 = [] := List.length_eq_zero.mp hlen
      rw [hnil, if_neg hno] at hsw
      cases hsw
    have hc : (cleanupGame game).1
        = some { g1 with Players := (sweepPlayers game.Players).1 } := by
      unfold cleanupGame
      rw [hf]
      simp only [hplayers]
      rw [if_neg hne]
    refine ⟨_, hget.trans hc, ?_⟩
    simp only [hsw, if_neg hno]
  · intro game' player' hg' hp'
    rw [hget] at hg'
    rw [hcg game' hg', hsw] at hp'
    split at hp'
    · cases hp'
    · rename_i hno
      cases hp'
      exact ⟨rfl, not_lt.mp hno, rfl, rfl⟩

/-- C3 at a concrete registry: in a complete game of two, the player silent for 6 ticks
is evicted at the next cleanup and the other one stays with its counter raised by one. -/
theorem cleanup_player_sweep_witness :
    mapGet (sweepPlayers fullGame.Players).1 1 = none ∧
      mapGet (sweepPlayers fullGame.Players).1 2 = some ⟨"Qm9i:2", 3, none⟩ :=
  ⟨(cleanup_player_sweep [("cards_table-02", fullGame)] "cards_table-02" fullGame 1
      ⟨"QWxpY2U=:1", 6, some ⟨3, 8, false, "QWxpY2U=:1"⟩⟩
      (by decide) (by decide) (by decide) (by decide) (by decide) (by decide)).1,
   (cleanup_player_sweep [("cards_table-02", fullGame)] "cards_table-02" fullGame 2
      ⟨"Qm9i:2", 2, none⟩
      (by decide) (by decide) (by decide) (by decide) (by decide) (by decide)).1⟩

/-- C4: after cleanup returns, no game left in the registry has zero Players: a game
whose last Player is evicted by the per-player sweep of this call, or that was empty
already, is removed from the registry by this same call. -/
theorem cleanup_no_empty_game (games : Games) :
    (∀ gameToken game, (gameToken, game) ∈ (cleanup games).1 → game.Players.length ≠ 0) ∧
    (∀ gameToken game, mapGet (cleanup games).1 gameToken = some game →
      game.Players.length ≠ 0) ∧
    (MapWF games → ∀ gameToken game, (gameToken, game) ∈ games →
      (sweepPlayers game.Players).1 = [] → mapGet (cleanup games).1 gameToken = none) ∧
    (MapWF games → ∀ gameToken game, (gameToken, game) ∈ games →
      game.Players = [] → mapGet (cleanup games).1 gameToken = none) ∧
    cleanup [("cards_table-03", lastPlayerGame)]
      = ([], [Event.unregister 4 9,
              Event.broadcastMessage 4 MsgType.lostPlayerType "QWxpY2U=:1",
              Event.close 9]) := by
  have hkey : ∀ game game', (cleanupGame game).1 = some game' →
      game'.Players.length ≠ 0 ∧ game'.Players = (sweepPlayers game.Players).1 := by
    intro game game' h
    unfold cleanupGame at h
    rcases hf : formationCheck game with ⟨_ | g1, ev1⟩
    · rw [hf] at h
      cases h
    · have hplayers : g1.Players = game.Players := by
        unfold formationCheck at hf
        split at hf
        · simp only [] at hf
          split at hf
          · cases hf
          · cases hf
            rfl
        · cases hf
          rfl
      rw [hf] at h
      simp only [] at h
      split at h
      · cases h
      · rename_i hne
        cases h
        exact ⟨hne, by rw [hplayers]⟩
  have hmem : ∀ gameToken game, (gameToken, game) ∈ (cleanup games).1 →
      game.Players.length ≠ 0 := by
    intro gameToken game h
    rw [cleanup_fst] at h
    obtain ⟨⟨t, g⟩, _, hfm⟩ := List.mem_filterMap.mp h
    rcases hc : (cleanupGame g).1 with _ | g'
    · rw [hc] at hfm
      cases hfm
    · rw [hc] at hfm
      simp only [Option.map_some', Option.some.injEq, Prod.mk.injEq] at hfm
      rw [← hfm.2]
      exact (hkey g g' hc).1
  have hswept : MapWF games → ∀ gameToken game, (gameToken, game) ∈ games →
      (sweepPlayers game.Players).1 = [] → mapGet (cleanup games).1 gameToken = none := by
    intro hwf gameToken game hg hnil
    rw [mapGet_cleanup games hwf, mapGet_of_mem games gameToken game hwf hg]
    show (cleanupGame game).1 = none
    rcases hc : (cleanupGame game).1 with _ | g'
    · rfl
    · have h := hkey game g' hc
      rw [h.2, hnil] at h
      exact absurd rfl h.1
  refine ⟨hmem, ?_, hswept, ?_, by decide⟩
  · intro gameToken game h
    exact hmem gameToken game (mem_of_mapGet _ _ _ h)
  · intro hwf gameToken game hg hnil
    apply hswept hwf gameToken game hg
    rw [hnil]
    rfl

end Unigame

namespace Unigame

/-! ## `Client.Destroy` -/

theorem mapDelete_not_mem {κ β : Type} [DecidableEq κ] (m : List (κ × β)) (k : κ) :
    k ∉ mapKeys (mapDelete m k) := by
  intro h
  obtain ⟨e, he, hk⟩ := List.mem_map.mp h
  have := (List.mem_filter.mp he).2
  simp only [decide_eq_true_eq] at this
  exact this hk

theorem broadcastMessage_registered_subset (h : Hub) (msgType : MsgType) (payload : String)
    (client : Nat) (hmem : client ∈ (h.broadcastMessage msgType payload).registered) :
    client ∈ h.registered := by
  obtain ⟨e, he, hk⟩ := List.mem_map.mp hmem
  obtain ⟨e0, he0, hsome⟩ := List.mem_filterMap.mp he
  split at hsome
  · cases hsome
    exact List.mem_map.mpr ⟨e0, he0, hk⟩
  · cases hsome

/-- C5: Destroy is idempotent: a second call, on the client the first call left
(terminated flag set), sends no unregister event, broadcasts no lost-player message,
does not close the transport and leaves the client unchanged, so two calls have the
trace and the effect on every Hub of one call. -/
theorem Destroy_idempotent (c : Client) :
    c.Destroy.1.terminated = true ∧
    c.Destroy.1.Destroy = (c.Destroy.1, []) ∧
    c.Destroy.2 ++ c.Destroy.1.Destroy.2 = c.Destroy.2 ∧
    (∀ (id : Nat) (h : Hub),
      Hub.run id h (c.Destroy.2 ++ c.Destroy.1.Destroy.2) = Hub.run id h c.Destroy.2) ∧
    (c.Destroy.2 ++ c.Destroy.1.Destroy.2).count (Event.close c.conn) ≤ 1 ∧
    (c.Destroy.2 ++ c.Destroy.1.Destroy.2).count
      (Event.broadcastMessage c.hub MsgType.lostPlayerType c.player) ≤ 1 ∧
    (c.Destroy.2 ++ c.Destroy.1.Destroy.2).count (Event.unregister c.hub c.conn) ≤ 1 := by
  have h1 : c.Destroy.1.terminated = true := by
    unfold Client.Destroy
    split
    · assumption
    · rfl
  have h2 : c.Destroy.1.Destroy = (c.Destroy.1, []) := by
    generalize c.Destroy.1 = c' at h1 ⊢
    unfold Client.Destroy
    rw [if_pos h1]
  have h3 : c.Destroy.2 ++ c.Destroy.1.Destroy.2 = c.Destroy.2 := by
    rw [h2]
    exact List.append_nil _
  refine ⟨h1, h2, h3, fun id h => by rw [h3], ?_, ?_, ?_⟩
  all_goals
    rw [h3]
    unfold Client.Destroy
    split
    · simp
    · simp [List.count_cons]

/-- C6: for a Client that is not yet terminated, Destroy has exactly three effects, in
this order: the unregister event to its Hub, the lost-player broadcast with the Token
of its Player through that Hub, the close of the transport; the Hub handles the
unregister event first, so the client is not registered when the message is fanned
out and no frame is queued for it. -/
theorem Destroy_effects (c : Client) (hlive : c.terminated = false) :
    c.Destroy = ({ c with terminated := true },
      [Event.unregister c.hub c.conn,
       Event.broadcastMessage c.hub MsgType.lostPlayerType c.player,
       Event.close c.conn]) ∧
    (∀ h : Hub,
      c.conn ∉ (Hub.run c.hub h [Event.unregister c.hub c.conn]).registered ∧
      Hub.run c.hub h c.Destroy.2
        = (Hub.run c.hub h [Event.unregister c.hub c.conn]).broadcastMessage
            MsgType.lostPlayerType c.player ∧
      c.conn ∉ (Hub.run c.hub h c.Destroy.2).registered ∧
      mapGet (Hub.run c.hub h c.Destroy.2).clients c.conn = none) := by
  have hd : c.Destroy = ({ c with terminated := true },
      [Event.unregister c.hub c.conn,
       Event.broadcastMessage c.hub MsgType.lostPlayerType c.player,
       Event.close c.conn]) := by
    unfold Client.Destroy
    rw [hlive]
    rfl
  refine ⟨hd, fun h => ?_⟩
  have h1 : Hub.run c.hub h [Event.unregister c.hub c.conn] = h.unregister c.conn := by
    simp only [Hub.run, List.foldl_cons, List.foldl_nil, Hub.handle, if_pos]
  have h2 : Hub.run c.hub h c.Destroy.2
      = (h.unregister c.conn).broadcastMessage MsgType.lostPlayerType c.player := by
    rw [hd]
    simp only [Hub.run, List.foldl_cons, List.foldl_nil, Hub.handle, if_pos]
  have h3 : c.conn ∉ (h.unregister c.conn).registered := mapDelete_not_mem h.clients c.conn
  have h4 : c.conn ∉ (Hub.run c.hub h c.Destroy.2).registered := by
    rw [h2]
    exact fun hmem => h3 (broadcastMessage_registered_subset _ _ _ _ hmem)
  refine ⟨by rw [h1]; exact h3, by rw [h1, h2], h4, ?_⟩
  exact mapGet_eq_none_of_not_mem _ _ h4

/-- C6 at a concrete client and Hub: of the two registered clients only the other
one gets the lost-player frame. -/
theorem Destroy_effects_witness :
    Hub.run 0 ⟨[(7, []), (8, [])]⟩ (Client.Destroy ⟨0, 7, false, "QWxpY2U=:1"⟩).2
      = ⟨[(8, [⟨MsgType.lostPlayerType, "QWxpY2U=:1"⟩])]⟩ := by
  rw [((Destroy_effects ⟨0, 7, false, "QWxpY2U=:1"⟩ rfl).2 ⟨[(7, []), (8, [])]⟩).2.1]
  decide

end Unigame

namespace Unigame

/-! ## `ensureGameAndPlayer` -/

theorem mapGet_mapSet_self {κ β : Type} [DecidableEq κ] (m : List (κ × β)) (k : κ) (v : β) :
    mapGet (mapSet m k v) k = some v := by
  induction m with
  | nil => simp [mapSet, mapGet]
  | cons e rest ih =>
    obtain ⟨k', v'⟩ := e
    by_cases hk : k' = k
    · simp [mapSet, mapGet, hk]
    · simp [mapSet, mapGet, hk, ih]

theorem mapGet_mapSet_other {κ β : Type} [DecidableEq κ] (m : List (κ × β)) (k k2 : κ) (v : β)
    (hne : k ≠ k2) : mapGet (mapSet m k v) k2 = mapGet m k2 := by
  induction m with
  | nil => simp [mapSet, mapGet, hne]
  | cons e rest ih =>
    obtain ⟨k', v'⟩ := e
    by_cases hk : k' = k
    · subst hk
      simp [mapSet, mapGet, hne]
    · by_cases hk2 : k' = k2
      · subst hk2
        simp [mapSet, mapGet, hk]
      · simp [mapSet, mapGet, hk, hk2, ih]

theorem mapSet_mapSet {κ β : Type} [DecidableEq κ] (m : List (κ × β)) (k : κ) (v w : β) :
    mapSet (mapSet m k v) k w = mapSet m k w := by
  induction m with
  | nil => simp [mapSet]
  | cons e rest ih =>
    obtain ⟨k', v'⟩ := e
    by_cases hk : k' = k
    · simp [mapSet, hk]
    · simp [mapSet, hk, ih]

theorem ensure_eq (st : Registry) (gameToken playerToken : String) (playerOrder : Nat)
    (numPlayers : Int) :
    ensureGameAndPlayer st gameToken playerToken playerOrder numPlayers
      = match mapGet st.games gameToken with
        | some game =>
          ({ games := mapSet st.games gameToken
               (ensuredGame game playerToken playerOrder numPlayers),
             hubs := st.hubs },
            (ensuredGame game playerToken playerOrder numPlayers,
              ensuredPlayer game playerToken playerOrder), [])
        | none =>
          ({ games := mapSet st.games gameToken
               (ensuredGame (newGame st.hubs numPlayers) playerToken playerOrder numPlayers),
             hubs := st.hubs + 1 },
            (ensuredGame (newGame st.hubs numPlayers) playerToken playerOrder numPlayers,
              ensuredPlayer (newGame st.hubs numPlayers) playerToken playerOrder),
            [Event.hubStarted st.hubs]) := by
  unfold ensureGameAndPlayer ensuredGame ensuredPlayer newGame
  cases mapGet st.games gameToken with
  | none =>
    simp only []
    split <;> rfl
  | some game =>
    simp only []
    split <;> rfl

theorem ensuredGame_player (game : Game) (playerToken : String) (playerOrder : Nat)
    (numPlayers : Int) :
    mapGet (ensuredGame game playerToken playerOrder numPlayers).Players playerOrder
      = some (ensuredPlayer game playerToken playerOrder) := by
  unfold ensuredGame
  split <;> exact mapGet_mapSet_self _ _ _

theorem ensuredPlayer_idle (game : Game) (playerToken : String) (playerOrder : Nat) :
    (ensuredPlayer game playerToken playerOrder).IdleCount = 0 := by
  unfold ensuredPlayer
  split <;> rfl

theorem ensuredGame_numPlayers (game : Game) (playerToken : String) (playerOrder : Nat)
    (numPlayers : Int) :
    (ensuredGame game playerToken playerOrder numPlayers).NumPlayers
      = if game.NumPlayers = 0 then numPlayers else game.NumPlayers := by
  unfold ensuredGame
  split <;> rfl

theorem ensuredGame_fixed (game : Game) (playerToken : String) (playerOrder : Nat)
    (numPlayers : Int)
    (hplayers : mapSet game.Players playerOrder (ensuredPlayer game playerToken playerOrder)
      = game.Players)
    (hnum : game.NumPlayers = 0 → numPlayers = 0) :
    ensuredGame game playerToken playerOrder numPlayers = game := by
  unfold ensuredGame
  rw [hplayers]
  obtain ⟨ps, idle, num, hub⟩ := game
  simp only [] at hnum ⊢
  split
  · rename_i h0
    rw [hnum h0, h0]
  · rfl

theorem ensuredGame_twice (game : Game) (playerToken : String) (playerOrder : Nat)
    (numPlayers : Int) :
    ensuredPlayer (ensuredGame game playerToken playerOrder numPlayers) playerToken playerOrder
        = ensuredPlayer game playerToken playerOrder ∧
      ensuredGame (ensuredGame game playerToken playerOrder numPlayers)
          playerToken playerOrder numPlayers
        = ensuredGame game playerToken playerOrder numPlayers := by
  have hp : ensuredPlayer (ensuredGame game playerToken playerOrder numPlayers)
      playerToken playerOrder = ensuredPlayer game playerToken playerOrder := by
    have hidle := ensuredPlayer_idle game playerToken playerOrder
    have hget := ensuredGame_player game playerToken playerOrder numPlayers
    generalize ensuredGame game playerToken playerOrder numPlayers = g1 at hget
    unfold ensuredPlayer at hget hidle ⊢
    rw [hget]
    simp only []
    generalize (match mapGet game.Players playerOrder with
      | none => ({ Token := playerToken, IdleCount := 0, Client := none } : Player)
      | some player => { player with IdleCount := 0 }) = p at hidle
    obtain ⟨t, i, c⟩ := p
    simp only [] at hidle
    subst hidle
    rfl
  refine ⟨hp, ?_⟩
  apply ensuredGame_fixed
  · rw [hp]
    unfold ensuredGame
    split <;> exact mapSet_mapSet _ _ _ _
  · intro h0
    rw [ensuredGame_numPlayers] at h0
    split at h0
    · exact h0
    · rename_i hz
      exact absurd h0 hz

/-- C8: ensureGameAndPlayer is an idempotent upsert: a second call with the same
arguments leaves the registry (games, their NumPlayers and idle counters, their
players with tokens, idle counters and Clients) as the first call left it, returns the
same Game and Player, and starts no Hub; the first call starts exactly one Hub when
the game was unseen and none when it was there. -/
theorem ensureGameAndPlayer_idempotent (st : Registry) (gameToken playerToken : String)
    (playerOrder : Nat) (numPlayers : Int) :
    (ensureGameAndPlayer
        (ensureGameAndPlayer st gameToken playerToken playerOrder numPlayers).1
        gameToken playerToken playerOrder numPlayers)
      = ((ensureGameAndPlayer st gameToken playerToken playerOrder numPlayers).1,
         (ensureGameAndPlayer st gameToken playerToken playerOrder numPlayers).2.1, []) ∧
    (mapGet st.games gameToken = none →
      (ensureGameAndPlayer st gameToken playerToken playerOrder numPlayers).2.2
        = [Event.hubStarted st.hubs]) ∧
    (mapGet st.games gameToken ≠ none →
      (ensureGameAndPlayer st gameToken playerToken playerOrder numPlayers).2.2 = []) := by
  refine ⟨?_, ?_, ?_⟩
  · rw [ensure_eq st]
    cases mapGet st.games gameToken with
    | none =>
      simp only []
      rw [ensure_eq]
      simp only [mapGet_mapSet_self, mapSet_mapSet, (ensuredGame_twice _ _ _ _).1,
        (ensuredGame_twice _ _ _ _).2]
    | some game =>
      simp only []
      rw [ensure_eq]
      simp only [mapGet_mapSet_self, mapSet_mapSet, (ensuredGame_twice _ _ _ _).1,
        (ensuredGame_twice _ _ _ _).2]
  · intro hnone
    rw [ensure_eq, hnone]
  · intro hsome
    rw [ensure_eq]
    cases hm : mapGet st.games gameToken with
    | none => exact absurd hm hsome
    | some game => rfl

/-- C9: the expected player count of a game is set once: when the game exists with
NumPlayers other than 0, ensureGameAndPlayer leaves its NumPlayers as it was, whatever
numPlayers is supplied; when the game is unseen or its NumPlayers is 0, NumPlayers
after the call is the supplied numPlayers. -/
theorem ensureGameAndPlayer_numPlayers (st : Registry) (gameToken playerToken : String)
    (playerOrder : Nat) (numPlayers : Int) :
    (∃ game', mapGet (ensureGameAndPlayer st gameToken playerToken playerOrder numPlayers).1.games
        gameToken = some game' ∧
      game' = (ensureGameAndPlayer st gameToken playerToken playerOrder numPlayers).2.1.1 ∧
      (∀ game, mapGet st.games gameToken = some game → game.NumPlayers ≠ 0 →
        game'.NumPlayers = game.NumPlayers) ∧
      (∀ game, mapGet st.games gameToken = some game → game.NumPlayers = 0 →
        game'.NumPlayers = numPlayers) ∧
      (mapGet st.games gameToken = none → game'.NumPlayers = numPlayers)) ∧
    (∀ other, other ≠ gameToken →
      mapGet (ensureGameAndPlayer st gameToken playerToken playerOrder numPlayers).1.games other
        = mapGet st.games other) := by
  rw [ensure_eq]
  cases hm : mapGet st.games gameToken with
  | none =>
    refine ⟨⟨_, mapGet_mapSet_self _ _ _, rfl, ?_, ?_, ?_⟩, ?_⟩
    · intro game h
      cases h
    · intro game h
      cases h
    · intro _
      rw [ensuredGame_numPlayers]
      split
      · rfl
      · rfl
    · intro other hne
      exact mapGet_mapSet_other _ _ _ _ (Ne.symm hne)
  | some game0 =>
    refine ⟨⟨_, mapGet_mapSet_self _ _ _, rfl, ?_, ?_, ?_⟩, ?_⟩
    · intro game h hne
      cases h
      rw [ensuredGame_numPlayers, if_neg hne]
    · intro game h h0
      cases h
      rw [ensuredGame_numPlayers, if_pos h0]
    · intro h
      cases h
    · intro other hne
      exact mapGet_mapSet_other _ _ _ _ (Ne.symm hne)

end Unigame

namespace Unigame

/-! ## Lemmas on the byte-slice functions -/

theorem asciiSpace_lt (b : Nat) (h : asciiSpace b = true) : b < RuneSelf := by
  simp only [asciiSpace, Bool.or_eq_true, beq_iff_eq] at h
  unfold RuneSelf
  omega

theorem IsSpace_ascii (b : Nat) (h : b < RuneSelf) : IsSpace b = asciiSpace b := by
  unfold RuneSelf at h
  unfold IsSpace asciiSpace
  rw [if_pos (by omega)]
  have h1 : (b == 0x85) = false := by simp; omega
  have h2 : (b == 0xA0) = false := by simp; omega
  simp [h1, h2]

theorem DecodeRune_ascii (p0 : Nat) (rest : List Nat) (h : p0 < 0x80) :
    DecodeRune (p0 :: rest) = (p0, 1) := by
  simp only [DecodeRune, if_pos h]

/-- Width of a decoded rune, and the bytes of a rune of more than one byte. -/
theorem DecodeRune_width (p : List Nat) (hne : p ≠ []) (d : Nat × Nat)
    (hd : DecodeRune p = d) :
    1 ≤ d.2 ∧ d.2 ≤ 4 ∧ d.2 ≤ p.length ∧
    (2 ≤ d.2 → 0x80 ≤ p.getD 0 0 ∧ 0x80 ≤ p.getD 1 0 ∧
      (3 ≤ d.2 → 0x80 ≤ p.getD 2 0) ∧ (4 ≤ d.2 → 0x80 ≤ p.getD 3 0)) := by
  cases p with
  | nil => exact absurd rfl hne
  | cons p0 t =>
    unfold DecodeRune at hd
    simp only [] at hd
    have hp0 : (p0 :: t).getD 0 0 = p0 := rfl
    rw [hp0]
    generalize (p0 :: t).getD 1 0 = b1 at hd ⊢
    generalize (p0 :: t).getD 2 0 = b2 at hd ⊢
    generalize (p0 :: t).getD 3 0 = b3 at hd ⊢
    have hn : 1 ≤ (p0 :: t).length := by simp
    generalize (p0 :: t).length = n at hd hn ⊢
    have hsz : 2 ≤ (if p0 < 224 then 2 else if p0 < 240 then 3 else 4) ∧
        (if p0 < 224 then 2 else if p0 < 240 then 3 else 4) ≤ 4 := by
      split_ifs <;> omega
    have hlo : 0x80 ≤ (if p0 = 224 then 160 else if p0 = 240 then 144 else 128) := by
      split_ifs <;> omega
    generalize (if p0 < 224 then 2 else if p0 < 240 then 3 else 4) = sz at hd hsz
    generalize (if p0 = 224 then 160 else if p0 = 240 then 144 else 128) = lo at hd hlo
    generalize (if p0 = 237 then 159 else if p0 = 244 then 143 else 191) = hi at hd
    split_ifs at hd <;> subst hd <;> simp only [] <;> omega


theorem getD_drop (p : List Nat) (n j : Nat) : (p.drop n).getD j 0 = p.getD (n + j) 0 := by
  simp [List.getD_eq_getElem?_getD, List.getElem?_drop]

theorem getD_take (p : List Nat) (n j : Nat) (h : j < n) : (p.take n).getD j 0 = p.getD j 0 := by
  simp [List.getD_eq_getElem?_getD, List.getElem?_take, h]

theorem scanBack_le (p : List Nat) (lim : Nat) (k : Nat) : scanBack p lim k ≤ k := by
  induction k with
  | zero => simp [scanBack]
  | succ k ih =>
    unfold scanBack
    split_ifs <;> omega

/-- The last rune of a slice that ends in a non-ASCII byte: its width, and its bytes,
none of which is ASCII. -/
theorem DecodeLastRune_spec (p : List Nat) (hne : p ≠ [])
    (hlast : RuneSelf ≤ p.getD (p.length - 1) 0) (d : Nat × Nat) (hd : DecodeLastRune p = d) :
    1 ≤ d.2 ∧ d.2 ≤ p.length ∧
    (∀ k, p.length - d.2 ≤ k → k < p.length → RuneSelf ≤ p.getD k 0) ∧
    (p.getD 0 0 < RuneSelf → d.2 < p.length) ∧
    (2 ≤ d.2 → DecodeRune (p.drop (p.length - d.2)) = d) := by
  have hlen : 0 < p.length := List.length_pos.mpr hne
  unfold DecodeLastRune at hd
  rw [if_neg (by omega)] at hd
  simp only [] at hd
  rw [if_neg (by omega)] at hd
  have hstart := scanBack_le p (p.length - UTFMax) (p.length - 1)
  generalize scanBack p (p.length - UTFMax) (p.length - 1) = start at hd hstart
  have hdrop : p.drop start ≠ [] := by
    intro h
    have := congrArg List.length h
    simp only [List.length_drop, List.length_nil] at this
    omega
  have hw := DecodeRune_width (p.drop start) hdrop _ rfl
  simp only [getD_drop, List.length_drop] at hw
  generalize hd' : DecodeRune (p.drop start) = d' at hd hw
  by_cases hm : start + d'.2 ≠ p.length
  · rw [if_pos hm] at hd
    subst hd
    simp only []
    refine ⟨by omega, by omega, ?_, ?_, by omega⟩
    · intro k hk1 hk2
      have : k = p.length - 1 := by omega
      rw [this]
      exact hlast
    · intro h0
      by_contra hcon
      have h1 : p.length = 1 := by omega
      rw [h1] at hlast
      simp only [Nat.sub_self] at hlast
      omega
  · rw [if_neg hm] at hd
    subst hd
    have hm' : start + d'.2 = p.length := by omega
    have hst : p.length - d'.2 = start := by omega
    refine ⟨hw.1, by omega, ?_, ?_, ?_⟩
    · intro k hk1 hk2
      by_cases h2 : 2 ≤ d'.2
      · obtain ⟨h20, h21, h22, h23⟩ := hw.2.2.2 h2
        simp only [RuneSelf]
        have hk : k = start + 0 ∨ k = start + 1 ∨ k = start + 2 ∨ k = start + 3 := by omega
        rcases hk with hk | hk | hk | hk
        · rw [hk]; exact h20
        · rw [hk]; exact h21
        · rw [hk]; exact h22 (by omega)
        · rw [hk]; exact h23 (by omega)
      · have : k = p.length - 1 := by omega
        rw [this]
        exact hlast
    · intro h0
      by_contra hcon
      have hs0 : start = 0 := by omega
      by_cases h2 : 2 ≤ d'.2
      · have := (hw.2.2.2 h2).1
        rw [hs0] at this
        simp only [RuneSelf, Nat.add_zero] at h0 this
        omega
      · have h1 : p.length = 1 := by omega
        rw [h1] at hlast
        simp only [Nat.sub_self] at hlast
        omega
    · intro _
      rw [hst]
      exact hd'


theorem DecodeRune_eq_decodeBytes (p : List Nat) (hne : p ≠ []) :
    DecodeRune p = decodeBytes (p.getD 0 0) p.length (p.getD 1 0) (p.getD 2 0) (p.getD 3 0) := by
  cases p with
  | nil => exact absurd rfl hne
  | cons p0 t => rfl

theorem decodeBytes_stable (p0 n b1 b2 b3 n' b1' b2' b3' : Nat) (d : Nat × Nat)
    (hd : decodeBytes p0 n b1 b2 b3 = d) (h2 : 2 ≤ d.2) (hn : n ≤ n')
    (e1 : b1' = b1) (e2 : 3 ≤ d.2 → b2' = b2) (e3 : 4 ≤ d.2 → b3' = b3) :
    decodeBytes p0 n' b1' b2' b3' = d := by
  subst e1
  unfold decodeBytes at hd ⊢
  simp only [] at hd ⊢
  have hsz : 2 ≤ (if p0 < 224 then 2 else if p0 < 240 then 3 else 4) ∧
      (if p0 < 224 then 2 else if p0 < 240 then 3 else 4) ≤ 4 := by
    split_ifs <;> omega
  generalize (if p0 < 224 then 2 else if p0 < 240 then 3 else 4) = sz at hd hsz ⊢
  generalize (if p0 = 224 then 160 else if p0 = 240 then 144 else 128) = lo at hd ⊢
  generalize (if p0 = 237 then 159 else if p0 = 244 then 143 else 191) = hi at hd ⊢
  by_cases c1 : p0 < 128
  · rw [if_pos c1] at hd; subst hd; simp at h2
  rw [if_neg c1] at hd ⊢
  by_cases c2 : p0 < 194 ∨ 244 < p0
  · rw [if_pos c2] at hd; subst hd; simp at h2
  rw [if_neg c2] at hd ⊢
  by_cases c3 : n < sz
  · rw [if_pos c3] at hd; subst hd; simp at h2
  rw [if_neg c3] at hd
  rw [if_neg (by omega : ¬ n' < sz)]
  by_cases c4 : b1' < lo ∨ hi < b1'
  · rw [if_pos c4] at hd; subst hd; simp at h2
  rw [if_neg c4] at hd ⊢
  by_cases c5 : sz ≤ 2
  · rw [if_pos c5] at hd ⊢; exact hd
  rw [if_neg c5] at hd ⊢
  by_cases c6 : b2 < 128 ∨ 191 < b2
  · rw [if_pos c6] at hd; subst hd; simp at h2
  rw [if_neg c6] at hd
  have hb2 : b2' = b2 := by
    apply e2
    split_ifs at hd <;> subst hd <;> first | (simp at h2; done) | simp
  subst hb2
  rw [if_neg c6]
  by_cases c7 : sz ≤ 3
  · rw [if_pos c7] at hd ⊢; exact hd
  rw [if_neg c7] at hd ⊢
  by_cases c8 : b3 < 128 ∨ 191 < b3
  · rw [if_pos c8] at hd; subst hd; simp at h2
  rw [if_neg c8] at hd
  have hb3 : b3' = b3 := by
    apply e3
    subst hd
    simp
  subst hb3
  rw [if_neg c8]
  exact hd

/-- A rune of more than one byte is decoded from its own bytes alone. -/
theorem DecodeRune_take (s : List Nat) (j i : Nat) (hji : j < i) (hi : i ≤ s.length)
    (d : Nat × Nat) (hd : DecodeRune ((s.take i).drop j) = d) (h2 : 2 ≤ d.2) :
    DecodeRune (s.drop j) = d := by
  have hne1 : (s.take i).drop j ≠ [] := by
    intro h
    have := congrArg List.length h
    simp only [List.length_drop, List.length_take, List.length_nil] at this
    omega
  have hne2 : s.drop j ≠ [] := by
    intro h
    have := congrArg List.length h
    simp only [List.length_drop, List.length_nil] at this
    omega
  have hw := DecodeRune_width _ hne1 d hd
  rw [DecodeRune_eq_decodeBytes _ hne1] at hd
  rw [DecodeRune_eq_decodeBytes _ hne2]
  simp only [List.length_drop, List.length_take] at hw
  have h0 : (s.drop j).getD 0 0 = ((s.take i).drop j).getD 0 0 := by
    rw [getD_drop, getD_drop, getD_take _ _ _ (by omega)]
  rw [h0]
  refine decodeBytes_stable _ _ _ _ _ _ _ _ _ d hd h2 ?_ ?_ ?_ ?_
  · simp only [List.length_drop, List.length_take]
    omega
  · rw [getD_drop, getD_drop, getD_take _ _ _ (by omega)]
  · intro h3
    rw [getD_drop, getD_drop, getD_take _ _ _ (by omega)]
  · intro h4
    rw [getD_drop, getD_drop, getD_take _ _ _ (by omega)]


/-- The backward scan of `lastIndexFunc` on a slice that starts with an ASCII byte
other than white space: it finds a rune at `j`, which ends at or before `e`, and
every byte it stepped over (from `e` to `i`) is ASCII white space or not ASCII. -/
theorem lastIndexFunc_spec (s : List Nat) (h0 : s.getD 0 0 < RuneSelf)
    (hns : IsSpace (s.getD 0 0) = false) (fuel : Nat) :
    ∀ i, 1 ≤ i → i ≤ s.length → i ≤ fuel →
    ∃ j e, lastIndexFunc s IsSpace fuel i = some j ∧ j < e ∧ e ≤ i ∧
      (∀ k, e ≤ k → k < i → asciiSpace (s.getD k 0) = true ∨ RuneSelf ≤ s.getD k 0) ∧
      ((s.getD j 0 < RuneSelf ∧ IsSpace (s.getD j 0) = false ∧ e = j + 1) ∨
       (RuneSelf ≤ s.getD j 0 ∧ e ≤ j + (DecodeRune (s.drop j)).2)) := by
  induction fuel with
  | zero =>
    intro i hi1 _ hf
    omega
  | succ fuel ih =>
    intro i hi1 hi2 hf
    unfold lastIndexFunc
    rw [if_pos (by omega)]
    by_cases hascii : s.getD (i - 1) 0 < RuneSelf
    · simp only [if_pos hascii]
      by_cases hsp : IsSpace (s.getD (i - 1) 0) = false
      · rw [if_pos hsp]
        refine ⟨i - 1, i, rfl, by omega, le_refl _, fun k h1 h2 => by omega, Or.inl ⟨hascii, hsp, by omega⟩⟩
      · rw [if_neg hsp]
        have hi : 1 ≤ i - 1 := by
          by_contra hcon
          have h1 : i - 1 = 0 := by omega
          rw [h1] at hsp
          exact hsp hns
        obtain ⟨j, e, hres, hje, hei, hcut, hrune⟩ := ih (i - 1) hi (by omega) (by omega)
        refine ⟨j, e, hres, hje, by omega, ?_, hrune⟩
        intro k h1 h2
        by_cases hk : k < i - 1
        · exact hcut k h1 hk
        · have hk' : k = i - 1 := by omega
          rw [hk']
          left
          rw [← IsSpace_ascii _ hascii]
          simpa using hsp
    · simp only [if_neg hascii]
      have hlen : (s.take i).length = i := by
        rw [List.length_take]
        omega
      have hne : s.take i ≠ [] := by
        intro h
        rw [h] at hlen
        simp at hlen
        omega
      have hlast : RuneSelf ≤ (s.take i).getD ((s.take i).length - 1) 0 := by
        rw [hlen, getD_take _ _ _ (by omega)]
        omega
      obtain ⟨hd1, hd2, hbytes, hfirst, hdec⟩ :=
        DecodeLastRune_spec (s.take i) hne hlast _ rfl
      rw [hlen] at hd2 hbytes hfirst hdec
      rw [getD_take _ _ _ (by omega)] at hfirst
      have hd3 := hfirst h0
      generalize DecodeLastRune (s.take i) = d at hd1 hd2 hbytes hd3 hdec ⊢
      have hchunk : ∀ k, i - d.2 ≤ k → k < i → RuneSelf ≤ s.getD k 0 := by
        intro k h1 h2
        have := hbytes k h1 h2
        rwa [getD_take _ _ _ h2] at this
      by_cases hsp : IsSpace d.1 = false
      · rw [if_pos hsp]
        refine ⟨i - d.2, i, rfl, by omega, le_refl _, fun k h1 h2 => by omega, Or.inr ⟨?_, ?_⟩⟩
        · exact hchunk _ (le_refl _) (by omega)
        · by_cases h2 : 2 ≤ d.2
          · rw [DecodeRune_take s (i - d.2) i (by omega) hi2 d (hdec h2) h2]
            omega
          · have hne2 : s.drop (i - d.2) ≠ [] := by
              intro h
              have := congrArg List.length h
              simp only [List.length_drop, List.length_nil] at this
              omega
            have := (DecodeRune_width _ hne2 _ rfl).1
            omega
      · rw [if_neg hsp]
        obtain ⟨j, e, hres, hje, hei, hcut, hrune⟩ := ih (i - d.2) (by omega) (by omega) (by omega)
        refine ⟨j, e, hres, hje, by omega, ?_, hrune⟩
        intro k h1 h2
        by_cases hk : k < i - d.2
        · exact hcut k h1 hk
        · right
          exact hchunk k (by omega) h2


/-- The function `TrimFunc` with `IsSpace`, on a slice that starts with an ASCII byte other than
white space keeps a prefix that does not end in ASCII white space; every byte it
cuts is ASCII white space or not ASCII. -/
theorem TrimFunc_spec (s : List Nat) (hne : s ≠ []) (h0 : s.getD 0 0 < RuneSelf)
    (hns : IsSpace (s.getD 0 0) = false) :
    ∃ n, 1 ≤ n ∧ n ≤ s.length ∧ TrimFunc s IsSpace = s.take n ∧
      asciiSpace (s.getD (n - 1) 0) = false ∧
      (∀ k, n ≤ k → k < s.length → asciiSpace (s.getD k 0) = true ∨ RuneSelf ≤ s.getD k 0) := by
  have hlen : 0 < s.length := List.length_pos.mpr hne
  have hleft : TrimLeftFunc s IsSpace = s := by
    unfold TrimLeftFunc indexFunc
    rw [if_pos hlen]
    simp only [if_pos h0, hns, if_true, List.drop_zero]
  unfold TrimFunc
  rw [hleft]
  obtain ⟨j, e, hres, hje, hei, hcut, hrune⟩ :=
    lastIndexFunc_spec s h0 hns (s.length + 1) s.length (by omega) (le_refl _) (by omega)
  unfold TrimRightFunc
  rw [hres]
  simp only []
  rcases hrune with ⟨hasc, hnsp, hej⟩ | ⟨hnon, hew⟩
  · rw [if_neg (by omega)]
    refine ⟨j + 1, by omega, by omega, rfl, ?_, ?_⟩
    · rw [Nat.add_sub_cancel, ← IsSpace_ascii _ hasc]
      exact hnsp
    · intro k h1 h2
      exact hcut k (by omega) h2
  · rw [if_pos hnon]
    have hne2 : s.drop j ≠ [] := by
      intro h
      have := congrArg List.length h
      simp only [List.length_drop, List.length_nil] at this
      omega
    obtain ⟨hw1, hw4, hwl, hwb⟩ := DecodeRune_width _ hne2 _ rfl
    simp only [List.length_drop, getD_drop] at hwl hwb
    generalize (DecodeRune (s.drop j)).2 = w at hew hw1 hw4 hwl hwb ⊢
    refine ⟨j + w, by omega, by omega, rfl, ?_, ?_⟩
    · have hge : RuneSelf ≤ s.getD (j + w - 1) 0 := by
        by_cases h2 : 2 ≤ w
        · obtain ⟨_, hb1, hb2, hb3⟩ := hwb h2
          simp only [RuneSelf]
          have hw : w = 2 ∨ w = 3 ∨ w = 4 := by omega
          rcases hw with hw | hw | hw
          · subst hw
            exact hb1
          · subst hw
            exact hb2 (by omega)
          · subst hw
            exact hb3 (by omega)
        · have hw : w = 1 := by omega
          subst hw
          exact hnon
      cases hsp : asciiSpace (s.getD (j + w - 1) 0) with
      | false => rfl
      | true =>
        have := asciiSpace_lt _ hsp
        omega
    · intro k h1 h2
      exact hcut k (by omega) h2

/-- The second loop of `TrimSpace` from `n` down, on a slice whose first byte is ASCII
and not white space: it stops at `m ≥ 1`, after stepping over ASCII white space only. -/
theorem trimSpaceStop_spec (s : List Nat)
    (hns : asciiSpace (s.getD 0 0) = false) (n : Nat) (hn : 1 ≤ n) :
    ∃ m, 1 ≤ m ∧ m ≤ n ∧
      (∀ k, m ≤ k → k < n → asciiSpace (s.getD k 0) = true) ∧
      ((trimSpaceStop s 0 n = Sum.inl m ∧ asciiSpace (s.getD (m - 1) 0) = false) ∨
       (trimSpaceStop s 0 n = Sum.inr m ∧ RuneSelf ≤ s.getD (m - 1) 0)) := by
  induction n with
  | zero => omega
  | succ n ih =>
    unfold trimSpaceStop
    rw [if_pos (by omega)]
    by_cases hnon : s.getD n 0 ≥ RuneSelf
    · rw [if_pos hnon]
      exact ⟨n + 1, by omega, le_refl _, fun k h1 h2 => by omega, Or.inr ⟨rfl, hnon⟩⟩
    · rw [if_neg hnon]
      by_cases hsp : asciiSpace (s.getD n 0) = false
      · rw [if_pos hsp]
        exact ⟨n + 1, by omega, le_refl _, fun k h1 h2 => by omega, Or.inl ⟨rfl, hsp⟩⟩
      · rw [if_neg hsp]
        have hn1 : 1 ≤ n := by
          by_contra hcon
          have : n = 0 := by omega
          rw [this] at hsp
          exact hsp hns
        obtain ⟨m, hm1, hm2, hcut, hres⟩ := ih hn1
        refine ⟨m, hm1, by omega, ?_, hres⟩
        intro k h1 h2
        by_cases hk : k < n
        · exact hcut k h1 hk
        · have : k = n := by omega
          rw [this]
          simpa using hsp

/-- The function `TrimSpace`, on a slice whose first byte is ASCII and not white space keeps a
prefix that does not end in ASCII white space; every byte it cuts is ASCII white
space or not ASCII. -/
theorem TrimSpace_tagged (s : List Nat) (hne : s ≠ []) (h0 : s.getD 0 0 < RuneSelf)
    (hns : asciiSpace (s.getD 0 0) = false) :
    ∃ n, 1 ≤ n ∧ n ≤ s.length ∧ TrimSpace s = s.take n ∧
      asciiSpace (s.getD (n - 1) 0) = false ∧
      (∀ k, n ≤ k → k < s.length → asciiSpace (s.getD k 0) = true ∨ RuneSelf ≤ s.getD k 0) := by
  have hlen : 0 < s.length := List.length_pos.mpr hne
  have hstart : trimSpaceStart s s.length 0 = Sum.inl 0 := by
    obtain ⟨n, hn⟩ : ∃ n, s.length = n + 1 := ⟨s.length - 1, by omega⟩
    rw [hn]
    unfold trimSpaceStart
    rw [if_pos (by omega), if_neg (by omega), if_pos hns]
  obtain ⟨m, hm1, hm2, hcut, hres⟩ := trimSpaceStop_spec s hns s.length hlen
  unfold TrimSpace
  rw [hstart]
  simp only []
  rcases hres with ⟨hstop, hlast⟩ | ⟨hstop, hlast⟩
  · rw [hstop]
    simp only [List.drop_zero]
    rw [if_neg (by omega)]
    exact ⟨m, hm1, hm2, rfl, hlast, fun k h1 h2 => Or.inl (hcut k h1 h2)⟩
  · rw [hstop]
    simp only [List.drop_zero]
    have hlen' : (s.take m).length = m := by
      rw [List.length_take]
      omega
    have hne' : s.take m ≠ [] := by
      intro h
      rw [h] at hlen'
      simp at hlen'
      omega
    have h0' : (s.take m).getD 0 0 = s.getD 0 0 := getD_take _ _ _ (by omega)
    have hns' : IsSpace ((s.take m).getD 0 0) = false := by
      rw [h0', IsSpace_ascii _ h0]
      exact hns
    obtain ⟨n, hn1, hn2, htrim, hnl, hncut⟩ :=
      TrimFunc_spec (s.take m) hne' (by rw [h0']; exact h0) hns'
    rw [hlen'] at hn2 hncut
    refine ⟨n, hn1, by omega, ?_, ?_, ?_⟩
    · rw [htrim, List.take_take, Nat.min_eq_left hn2]
    · rw [getD_take _ _ _ (by omega)] at hnl
      exact hnl
    · intro k h1 h2
      by_cases hk : k < m
      · have := hncut k h1 hk
        rwa [getD_take _ _ _ hk] at this
      · exact Or.inl (hcut k (by omega) h2)


theorem rdropWhile_append_of_all (p : Nat → Bool) (a b : List Nat)
    (hb : ∀ x ∈ b, p x = true) (ha : ∀ x, a.getLast? = some x → p x = false) :
    (a ++ b).rdropWhile p = a := by
  induction b using List.reverseRecOn with
  | nil =>
    rw [List.append_nil, List.rdropWhile_eq_self_iff]
    intro hl
    have := ha (a.getLast hl) (List.getLast?_eq_getLast a hl)
    simp [this]
  | append_singleton b x ih =>
    rw [← List.append_assoc, List.rdropWhile_concat, if_pos (hb x (by simp))]
    exact ih (fun y hy => hb y (by simp [hy]))

theorem Replace_cons (b : Nat) (s : List Nat) (old new : Nat) :
    Replace (b :: s) old new = (if b = old then new else b) :: Replace s old new := rfl

theorem newline_not_mem_Replace (s : List Nat) : newline ∉ Replace s newline space := by
  intro h
  obtain ⟨b, _, hb⟩ := List.mem_map.mp h
  split at hb
  · simp [space, newline] at hb
  · rename_i hne
    exact hne hb

theorem Replace_ascii (s : List Nat) (h : ∀ b ∈ s, b < RuneSelf) :
    ∀ b ∈ Replace s newline space, b < RuneSelf := by
  intro b hb
  obtain ⟨a, ha, hab⟩ := List.mem_map.mp hb
  split at hab
  · rw [← hab]
    decide
  · rw [← hab]
    exact h a ha

end Unigame

namespace Unigame

/-! ## White-space runes at the end of a slice -/

/-- The bytes of a rune of more than one byte: a lead byte and continuation bytes. -/
theorem DecodeRune_cont (p : List Nat) (hne : p ≠ []) (d : Nat × Nat)
    (hd : DecodeRune p = d) (h2 : 2 ≤ d.2) :
    0xC2 ≤ p.getD 0 0 ∧ p.getD 1 0 ≤ 0xBF ∧
      (3 ≤ d.2 → p.getD 2 0 ≤ 0xBF) ∧ (4 ≤ d.2 → p.getD 3 0 ≤ 0xBF) := by
  rw [DecodeRune_eq_decodeBytes p hne] at hd
  generalize p.getD 0 0 = p0 at hd ⊢
  generalize p.getD 1 0 = b1 at hd ⊢
  generalize p.getD 2 0 = b2 at hd ⊢
  generalize p.getD 3 0 = b3 at hd ⊢
  generalize p.length = n at hd
  unfold decodeBytes at hd
  simp only [] at hd
  have hhi : (if p0 = 237 then 159 else if p0 = 244 then 143 else 191) ≤ 0xBF := by
    split_ifs <;> omega
  generalize (if p0 < 224 then 2 else if p0 < 240 then 3 else 4) = sz at hd
  generalize (if p0 = 224 then 160 else if p0 = 240 then 144 else 128) = lo at hd
  generalize (if p0 = 237 then 159 else if p0 = 244 then 143 else 191) = hi at hd hhi
  split_ifs at hd <;> subst hd <;> simp only [] at h2 ⊢ <;> omega

theorem DecodeRune_singleton (b : Nat) :
    DecodeRune [b] = if b < 0x80 then (b, 1) else (RuneError, 1) := by
  by_cases h : b < 0x80
  · rw [if_pos h]
    exact DecodeRune_ascii b [] h
  · rw [if_neg h, DecodeRune_eq_decodeBytes [b] (List.cons_ne_nil _ _)]
    simp only [List.getD_cons_zero, List.length_singleton, List.getD_cons_succ, List.getD_nil]
    unfold decodeBytes
    simp only []
    rw [if_neg h]
    by_cases h2 : b < 194 ∨ 244 < b
    · rw [if_pos h2]
    · rw [if_neg h2]
      have hsz : 1 < (if b < 224 then 2 else if b < 240 then 3 else 4) := by
        split_ifs <;> omega
      rw [if_pos hsz]

theorem SpaceRunes_append (a b : List Nat) (ha : SpaceRunes a) (hb : SpaceRunes b) :
    SpaceRunes (a ++ b) := by
  induction ha with
  | nil => exact hb
  | rune c rest hne hwhole hspace _ ih =>
    rw [List.append_assoc]
    exact SpaceRunes.rune c (rest ++ b) hne hwhole hspace ih

theorem SpaceRunes_single (b : Nat) (hb : b < RuneSelf) (hsp : IsSpace b = true) :
    SpaceRunes [b] := by
  have h := SpaceRunes.rune [b] [] (List.cons_ne_nil _ _)
    (by rw [DecodeRune_ascii b [] hb]; rfl) (by rw [DecodeRune_ascii b [] hb]; exact hsp)
    SpaceRunes.nil
  simpa using h

theorem SpaceRunes_of_asciiSpace (l : List Nat) (h : ∀ b ∈ l, asciiSpace b = true) :
    SpaceRunes l := by
  induction l with
  | nil => exact SpaceRunes.nil
  | cons b rest ih =>
    have hb := h b (List.mem_cons_self _ _)
    have hlt := asciiSpace_lt b hb
    have h1 : SpaceRunes [b] := SpaceRunes_single b hlt (by rw [IsSpace_ascii b hlt]; exact hb)
    exact SpaceRunes_append [b] rest h1 (ih (fun x hx => h x (List.mem_cons_of_mem _ hx)))

/-- White space does not begin with a continuation byte. -/
theorem SpaceRunes_head (t : List Nat) (h : SpaceRunes t) (hne : t ≠ []) :
    t.getD 0 0 < 0x80 ∨ 0xBF < t.getD 0 0 := by
  cases h with
  | nil => exact absurd rfl hne
  | rune c rest hcne hwhole hspace _ =>
    obtain ⟨c0, ct, rfl⟩ := List.exists_cons_of_ne_nil hcne
    simp only [List.cons_append, List.getD_cons_zero]
    by_contra hcon
    have h1 : ¬ c0 < 0x80 := by omega
    have h2 : c0 < 194 ∨ 244 < c0 := by omega
    have : DecodeRune (c0 :: ct) = (RuneError, 1) := by
      simp only [DecodeRune, if_neg h1, if_pos h2]
    rw [this] at hspace
    exact absurd hspace (by decide)

/-- The last rune of a slice that ends in a non-ASCII byte is RuneError of width 1,
or the rune that `DecodeRune` reads from where it starts. -/
theorem DecodeLastRune_cases (p : List Nat) (hne : p ≠ [])
    (hlast : RuneSelf ≤ p.getD (p.length - 1) 0) :
    DecodeLastRune p = (RuneError, 1) ∨
      DecodeRune (p.drop (p.length - (DecodeLastRune p).2)) = DecodeLastRune p := by
  have hlen : 0 < p.length := List.length_pos.mpr hne
  unfold DecodeLastRune
  rw [if_neg (by omega)]
  simp only []
  rw [if_neg (by omega)]
  generalize scanBack p (p.length - UTFMax) (p.length - 1) = start
  by_cases hm : start + (DecodeRune (p.drop start)).2 ≠ p.length
  · left
    rw [if_pos hm]
  · right
    rw [if_neg hm]
    have : p.length - (DecodeRune (p.drop start)).2 = start := by omega
    rw [this]

theorem drop_eq_take_drop_append (s : List Nat) (j i : Nat) (hji : j ≤ i) (hi : i ≤ s.length) :
    s.drop j = (s.take i).drop j ++ s.drop i := by
  conv_lhs => rw [← List.take_append_drop i s]
  rw [List.drop_append_of_le_length]
  rw [List.length_take]
  omega

theorem DecodeLastRune_ascii (p : List Nat) (hne : p ≠ [])
    (hlast : p.getD (p.length - 1) 0 < RuneSelf) :
    DecodeLastRune p = (p.getD (p.length - 1) 0, 1) := by
  have hlen : 0 < p.length := List.length_pos.mpr hne
  unfold DecodeLastRune
  rw [if_neg (by omega)]
  simp only []
  rw [if_pos hlast]

/-- The backward scan of `lastIndexFunc`, on a slice that starts with an ASCII byte
other than white space and holds white space only from `i` on: the scan finds a rune
at `j`; `TrimRightFunc` cuts at its end `e`; from `e` on the slice is white space
only, and up to `e` it does not end with white space. -/
theorem lastIndexFunc_runes (s : List Nat) (h0 : s.getD 0 0 < RuneSelf)
    (hns : IsSpace (s.getD 0 0) = false) (fuel : Nat) :
    ∀ i, 1 ≤ i → i ≤ s.length → i ≤ fuel → SpaceRunes (s.drop i) →
    ∃ j e, lastIndexFunc s IsSpace fuel i = some j ∧ 1 ≤ e ∧ e ≤ i ∧
      (if s.getD j 0 ≥ RuneSelf then j + (DecodeRune (s.drop j)).2 else j + 1) = e ∧
      SpaceRunes (s.drop e) ∧ EndsWithoutSpace (s.take e) := by
  induction fuel with
  | zero =>
    intro i hi1 _ hf
    omega
  | succ fuel ih =>
    intro i hi1 hi2 hf hsuffix
    have hlen : (s.take i).length = i := by
      rw [List.length_take]
      omega
    have hne : s.take i ≠ [] := by
      intro h
      rw [h] at hlen
      simp at hlen
      omega
    have hlastbyte : (s.take i).getD ((s.take i).length - 1) 0 = s.getD (i - 1) 0 := by
      rw [hlen, getD_take _ _ _ (by omega)]
    unfold lastIndexFunc
    rw [if_pos (by omega)]
    by_cases hascii : s.getD (i - 1) 0 < RuneSelf
    · simp only [if_pos hascii]
      by_cases hsp : IsSpace (s.getD (i - 1) 0) = false
      · rw [if_pos hsp]
        refine ⟨i - 1, i, rfl, hi1, le_refl _, ?_, hsuffix, ?_⟩
        · rw [if_neg (by omega)]
          omega
        · unfold EndsWithoutSpace
          rw [DecodeLastRune_ascii _ hne (by rw [hlastbyte]; exact hascii), hlastbyte]
          exact hsp
      · rw [if_neg hsp]
        have hi : 1 ≤ i - 1 := by
          by_contra hcon
          have h1 : i - 1 = 0 := by omega
          rw [h1] at hsp
          exact hsp hns
        have hsp' : IsSpace (s.getD (i - 1) 0) = true := by simpa using hsp
        have hdrop : s.drop (i - 1) = [s.getD (i - 1) 0] ++ s.drop i := by
          have h1 : i - 1 < s.length := by omega
          rw [List.drop_eq_getElem_cons h1, List.getD_eq_getElem _ _ h1]
          have : i - 1 + 1 = i := by omega
          rw [this]
          rfl
        have hsuffix' : SpaceRunes (s.drop (i - 1)) := by
          rw [hdrop]
          exact SpaceRunes_append _ _ (SpaceRunes_single _ hascii hsp') hsuffix
        obtain ⟨j, e, hres, he1, hei, hend, hcut, hkeep⟩ :=
          ih (i - 1) hi (by omega) (by omega) hsuffix'
        exact ⟨j, e, hres, he1, by omega, hend, hcut, hkeep⟩
    · simp only [if_neg hascii]
      have hlast : RuneSelf ≤ (s.take i).getD ((s.take i).length - 1) 0 := by
        rw [hlastbyte]
        omega
      obtain ⟨hd1, hd2, hbytes, hfirst, _⟩ :=
        DecodeLastRune_spec (s.take i) hne hlast _ rfl
      have hcases := DecodeLastRune_cases (s.take i) hne hlast
      rw [hlen] at hd2 hbytes hfirst hcases
      rw [getD_take _ _ _ (by omega)] at hfirst
      have hd3 := hfirst h0
      have hkeep0 : EndsWithoutSpace (s.take i) ↔ IsSpace (DecodeLastRune (s.take i)).1 = false :=
        Iff.rfl
      generalize DecodeLastRune (s.take i) = d at hd1 hd2 hbytes hd3 hcases hkeep0 ⊢
      have hchunk : ∀ k, i - d.2 ≤ k → k < i → RuneSelf ≤ s.getD k 0 := by
        intro k h1 h2
        have := hbytes k h1 h2
        rwa [getD_take _ _ _ h2] at this
      by_cases hsp : IsSpace d.1 = false
      · rw [if_pos hsp]
        refine ⟨i - d.2, i, rfl, hi1, le_refl _, ?_, hsuffix, hkeep0.mpr hsp⟩
        rw [if_pos (hchunk _ (le_refl _) (by omega))]
        have hne2 : s.drop (i - d.2) ≠ [] := by
          intro h
          have := congrArg List.length h
          simp only [List.length_drop, List.length_nil] at this
          omega
        by_cases h2 : 2 ≤ d.2
        · rcases hcases with hc | hc
          · rw [hc] at h2
            simp at h2
          · rw [DecodeRune_take s (i - d.2) i (by omega) hi2 d hc h2]
            omega
        · have hd21 : d.2 = 1 := by omega
          have hw := DecodeRune_width _ hne2 _ rfl
          by_cases hw2 : 2 ≤ (DecodeRune (s.drop (i - d.2))).2
          · exfalso
            have hb1 := (hw.2.2.2 hw2).2.1
            have hc1 := (DecodeRune_cont _ hne2 _ rfl hw2).2.1
            have hwl := hw.2.2.1
            rw [getD_drop] at hb1 hc1
            rw [List.length_drop] at hwl
            have hidx : i - d.2 + 1 = i := by omega
            rw [hidx] at hb1 hc1
            have hne3 : s.drop i ≠ [] := by
              intro h
              have := congrArg List.length h
              simp only [List.length_drop, List.length_nil] at this
              omega
            have hhead := SpaceRunes_head _ hsuffix hne3
            rw [getD_drop, Nat.add_zero] at hhead
            omega
          · omega
      · rw [if_neg hsp]
        have hsp' : IsSpace d.1 = true := by simpa using hsp
        have hdec : DecodeRune ((s.take i).drop (i - d.2)) = d := by
          rcases hcases with hc | hc
          · rw [hc] at hsp'
            exact absurd hsp' (by decide)
          · exact hc
        have hclen : ((s.take i).drop (i - d.2)).length = d.2 := by
          rw [List.length_drop, hlen]
          omega
        have hcne : (s.take i).drop (i - d.2) ≠ [] := by
          intro h
          rw [h] at hclen
          simp at hclen
          omega
        have hsuffix' : SpaceRunes (s.drop (i - d.2)) := by
          rw [drop_eq_take_drop_append s (i - d.2) i (by omega) hi2]
          exact SpaceRunes.rune _ _ hcne (by rw [hdec, hclen]) (by rw [hdec]; exact hsp') hsuffix
        obtain ⟨j, e, hres, he1, hei, hend, hcut, hkeep⟩ :=
          ih (i - d.2) (by omega) (by omega) (by omega) hsuffix'
        exact ⟨j, e, hres, he1, by omega, hend, hcut, hkeep⟩

/-- The function `TrimFunc` with `IsSpace`, on a slice that starts with an ASCII byte
other than white space: it keeps the prefix up to `e`; what it cuts is white space
only, and what it keeps does not end with white space. -/
theorem TrimFunc_runes (s : List Nat) (hne : s ≠ []) (h0 : s.getD 0 0 < RuneSelf)
    (hns : IsSpace (s.getD 0 0) = false) :
    ∃ e, 1 ≤ e ∧ e ≤ s.length ∧ TrimFunc s IsSpace = s.take e ∧
      SpaceRunes (s.drop e) ∧ EndsWithoutSpace (s.take e) := by
  have hlen : 0 < s.length := List.length_pos.mpr hne
  have hleft : TrimLeftFunc s IsSpace = s := by
    unfold TrimLeftFunc indexFunc
    rw [if_pos hlen]
    simp only [if_pos h0, hns, if_true, List.drop_zero]
  unfold TrimFunc
  rw [hleft]
  obtain ⟨j, e, hres, he1, hei, hend, hcut, hkeep⟩ :=
    lastIndexFunc_runes s h0 hns (s.length + 1) s.length (by omega) (le_refl _) (by omega)
      (by rw [List.drop_length]; exact SpaceRunes.nil)
  refine ⟨e, he1, hei, ?_, hcut, hkeep⟩
  unfold TrimRightFunc
  rw [hres]
  simp only []
  split
  · rename_i hc
    rw [if_pos hc] at hend
    rw [hend]
  · rename_i hc
    rw [if_neg hc] at hend
    rw [hend]

/-- The second loop of `TrimSpace` from `n` down, on a slice whose first byte is not
ASCII white space: it stops at `m ≥ 1` after stepping over ASCII white space only,
at an ASCII byte that is not white space or at a byte that is not ASCII. -/
theorem trimSpaceStop_runes (s : List Nat)
    (hns : asciiSpace (s.getD 0 0) = false) (n : Nat) (hn : 1 ≤ n) :
    ∃ m, 1 ≤ m ∧ m ≤ n ∧
      (∀ k, m ≤ k → k < n → asciiSpace (s.getD k 0) = true) ∧
      ((trimSpaceStop s 0 n = Sum.inl m ∧ asciiSpace (s.getD (m - 1) 0) = false ∧
          s.getD (m - 1) 0 < RuneSelf) ∨
       (trimSpaceStop s 0 n = Sum.inr m ∧ RuneSelf ≤ s.getD (m - 1) 0)) := by
  induction n with
  | zero => omega
  | succ n ih =>
    unfold trimSpaceStop
    rw [if_pos (by omega)]
    by_cases hnon : s.getD n 0 ≥ RuneSelf
    · rw [if_pos hnon]
      exact ⟨n + 1, by omega, le_refl _, fun k h1 h2 => by omega, Or.inr ⟨rfl, hnon⟩⟩
    · rw [if_neg hnon]
      by_cases hsp : asciiSpace (s.getD n 0) = false
      · rw [if_pos hsp]
        exact ⟨n + 1, by omega, le_refl _, fun k h1 h2 => by omega,
          Or.inl ⟨rfl, hsp, by simp only [Nat.add_sub_cancel]; omega⟩⟩
      · rw [if_neg hsp]
        have hn1 : 1 ≤ n := by
          by_contra hcon
          have : n = 0 := by omega
          rw [this] at hsp
          exact hsp hns
        obtain ⟨m, hm1, hm2, hcut, hres⟩ := ih hn1
        refine ⟨m, hm1, by omega, ?_, hres⟩
        intro k h1 h2
        by_cases hk : k < n
        · exact hcut k h1 hk
        · have : k = n := by omega
          rw [this]
          simpa using hsp

theorem mem_drop_getD (s : List Nat) (m : Nat) (b : Nat) (hb : b ∈ s.drop m) :
    ∃ k, m ≤ k ∧ k < s.length ∧ s.getD k 0 = b := by
  obtain ⟨i, hi, hib⟩ := List.mem_iff_getElem.mp hb
  rw [List.getElem_drop] at hib
  rw [List.length_drop] at hi
  refine ⟨m + i, by omega, by omega, ?_⟩
  rw [List.getD_eq_getElem _ _ (by omega)]
  exact hib

/-- The function `TrimSpace`, on a slice whose first byte is ASCII and not white
space: it keeps the prefix up to `e`; what it cuts is white space only, and what it
keeps does not end with white space. -/
theorem TrimSpace_runes (s : List Nat) (hne : s ≠ []) (h0 : s.getD 0 0 < RuneSelf)
    (hns : asciiSpace (s.getD 0 0) = false) :
    ∃ e, 1 ≤ e ∧ e ≤ s.length ∧ TrimSpace s = s.take e ∧
      SpaceRunes (s.drop e) ∧ EndsWithoutSpace (s.take e) := by
  have hlen : 0 < s.length := List.length_pos.mpr hne
  have hstart : trimSpaceStart s s.length 0 = Sum.inl 0 := by
    obtain ⟨n, hn⟩ : ∃ n, s.length = n + 1 := ⟨s.length - 1, by omega⟩
    rw [hn]
    unfold trimSpaceStart
    rw [if_pos (by omega), if_neg (by omega), if_pos hns]
  obtain ⟨m, hm1, hm2, hcut, hres⟩ := trimSpaceStop_runes s hns s.length hlen
  have hcutRunes : SpaceRunes (s.drop m) := by
    apply SpaceRunes_of_asciiSpace
    intro b hb
    obtain ⟨k, hk1, hk2, hkb⟩ := mem_drop_getD s m b hb
    rw [← hkb]
    exact hcut k hk1 hk2
  have hlen' : (s.take m).length = m := by
    rw [List.length_take]
    omega
  have hne' : s.take m ≠ [] := by
    intro h
    rw [h] at hlen'
    simp at hlen'
    omega
  unfold TrimSpace
  rw [hstart]
  simp only []
  rcases hres with ⟨hstop, hlast, hlt⟩ | ⟨hstop, hlast⟩
  · rw [hstop]
    simp only [List.drop_zero]
    rw [if_neg (by omega)]
    refine ⟨m, hm1, hm2, rfl, hcutRunes, ?_⟩
    have hb : (s.take m).getD ((s.take m).length - 1) 0 = s.getD (m - 1) 0 := by
      rw [hlen', getD_take _ _ _ (by omega)]
    unfold EndsWithoutSpace
    rw [DecodeLastRune_ascii _ hne' (by rw [hb]; exact hlt), hb, IsSpace_ascii _ hlt]
    exact hlast
  · rw [hstop]
    simp only [List.drop_zero]
    have h0' : (s.take m).getD 0 0 = s.getD 0 0 := getD_take _ _ _ (by omega)
    have hns' : IsSpace ((s.take m).getD 0 0) = false := by
      rw [h0', IsSpace_ascii _ h0]
      exact hns
    obtain ⟨e, he1, he2, htrim, hcut2, hkeep⟩ :=
      TrimFunc_runes (s.take m) hne' (by rw [h0']; exact h0) hns'
    rw [hlen'] at he2
    rw [List.take_take, Nat.min_eq_left he2] at htrim hkeep
    refine ⟨e, he1, by omega, htrim, ?_, hkeep⟩
    rw [drop_eq_take_drop_append s e m he2 hm2]
    exact SpaceRunes_append _ _ hcut2 hcutRunes

/-! ### The cut is determined by these two properties -/

theorem scanBack_find (p : List Nat) (lim t : Nat) (ht : RuneStart (p.getD t 0) = true)
    (hlim : lim ≤ t) (k : Nat) (htk : t < k)
    (hcont : ∀ i, t < i → i < k → RuneStart (p.getD i 0) = false) :
    scanBack p lim k = t := by
  induction k with
  | zero => omega
  | succ k ih =>
    unfold scanBack
    rw [if_pos (by omega)]
    by_cases hk : k = t
    · rw [hk, if_pos ht]
    · have hf := hcont k (by omega) (by omega)
      rw [hf]
      simp only [Bool.false_eq_true, if_false]
      exact ih (by omega) (fun i h1 h2 => hcont i h1 (by omega))

/-- The bytes after the first of a rune that `DecodeRune` reads whole are
continuation bytes. -/
theorem whole_rune_cont (c : List Nat) (hne : c ≠ []) (hwhole : (DecodeRune c).2 = c.length)
    (j : Nat) (hj1 : 1 ≤ j) (hj2 : j < c.length) :
    0x80 ≤ c.getD j 0 ∧ c.getD j 0 ≤ 0xBF ∧ 0xC2 ≤ c.getD 0 0 := by
  have h2 : 2 ≤ (DecodeRune c).2 := by omega
  obtain ⟨_, hw4, _, hwb⟩ := DecodeRune_width c hne _ rfl
  obtain ⟨_, hb1, hb2, hb3⟩ := hwb h2
  obtain ⟨hc0, hc1, hc2, hc3⟩ := DecodeRune_cont c hne _ rfl h2
  have hj : j = 1 ∨ j = 2 ∨ j = 3 := by omega
  rcases hj with hj | hj | hj
  · subst hj
    exact ⟨hb1, hc1, hc0⟩
  · subst hj
    exact ⟨hb2 (by omega), hc2 (by omega), hc0⟩
  · subst hj
    exact ⟨hb3 (by omega), hc3 (by omega), hc0⟩

/-- A white-space rune at the end of a slice is the rune `DecodeLastRune` reads. -/
theorem DecodeLastRune_chunk (pre c : List Nat) (hne : c ≠ [])
    (hwhole : (DecodeRune c).2 = c.length) (hspace : IsSpace (DecodeRune c).1 = true) :
    DecodeLastRune (pre ++ c) = DecodeRune c := by
  have hclen : 0 < c.length := List.length_pos.mpr hne
  have hpne : pre ++ c ≠ [] := by simp [hne]
  have hplen : (pre ++ c).length = pre.length + c.length := List.length_append _ _
  have hget : ∀ j, (pre ++ c).getD (pre.length + j) 0 = c.getD j 0 := by
    intro j
    rw [List.getD_append_right _ _ _ _ (by omega)]
    congr 1
    omega
  by_cases hlen1 : c.length = 1
  · obtain ⟨b, rfl⟩ := List.length_eq_one.mp hlen1
    rw [DecodeRune_singleton] at hspace ⊢
    by_cases hb : b < 0x80
    · rw [if_pos hb]
      have hlast : (pre ++ [b]).getD ((pre ++ [b]).length - 1) 0 = b := by
        rw [hplen]
        have := hget 0
        simp
      rw [DecodeLastRune_ascii _ hpne (by rw [hlast]; exact hb), hlast]
    · rw [if_neg hb] at hspace
      exact absurd hspace (by decide)
  · have hw2 : 2 ≤ c.length := by omega
    have hw4 : c.length ≤ 4 := by
      rw [← hwhole]
      exact (DecodeRune_width c hne _ rfl).2.1
    have hlastc := whole_rune_cont c hne hwhole (c.length - 1) (by omega) (by omega)
    have hlast : (pre ++ c).getD ((pre ++ c).length - 1) 0 = c.getD (c.length - 1) 0 := by
      rw [hplen, ← hget (c.length - 1)]
      congr 1
      omega
    unfold DecodeLastRune
    rw [if_neg (by omega)]
    simp only []
    rw [if_neg (by rw [hlast]; unfold RuneSelf; omega)]
    have hscan : scanBack (pre ++ c) ((pre ++ c).length - UTFMax) ((pre ++ c).length - 1)
        = pre.length := by
      apply scanBack_find
      · have := hget 0
        rw [Nat.add_zero] at this
        rw [this]
        have h0 := (whole_rune_cont c hne hwhole 1 (by omega) (by omega)).2.2
        unfold RuneStart
        have h1 : decide (c.getD 0 0 < 0xC0) = false := by
          rw [decide_eq_false_iff_not]
          omega
        simp only [h1, Bool.and_false, Bool.not_false]
      · rw [hplen]
        unfold UTFMax
        omega
      · rw [hplen]
        omega
      · intro i h1 h2
        rw [hplen] at h2
        obtain ⟨j, hj⟩ : ∃ j, i = pre.length + j := ⟨i - pre.length, by omega⟩
        rw [hj, hget j]
        have hb := whole_rune_cont c hne hwhole j (by omega) (by omega)
        unfold RuneStart
        have h3 : decide (0x80 ≤ c.getD j 0) = true := by
          rw [decide_eq_true_iff]
          exact hb.1
        have h4 : decide (c.getD j 0 < 0xC0) = true := by
          rw [decide_eq_true_iff]
          omega
        simp only [h3, h4, Bool.and_self, Bool.not_true]
    rw [hscan, List.drop_left, if_neg (by rw [hplen, hwhole]; omega)]

/-- Where a slice whose tail is white space is cut before that tail ends, the part
kept ends with white space. -/
theorem SpaceRunes_cut (c : List Nat) (hc : SpaceRunes c) :
    ∀ (x c2 pre : List Nat), c = x ++ c2 → SpaceRunes c2 → x ≠ [] →
      IsSpace (DecodeLastRune (pre ++ x)).1 = true := by
  induction hc with
  | nil =>
    intro x c2 pre h _ hx
    have := congrArg List.length h
    simp only [List.length_nil, List.length_append] at this
    have : x.length = 0 := by omega
    exact absurd (List.length_eq_zero.mp this) hx
  | rune ch rest hne hwhole hspace _ ih =>
    intro x c2 pre h hc2 hx
    have hwhole_eq : ∀ pre', IsSpace (DecodeLastRune (pre' ++ ch)).1 = true := by
      intro pre'
      rw [DecodeLastRune_chunk pre' ch hne hwhole hspace]
      exact hspace
    rcases List.append_eq_append_iff.mp h with ⟨a', hx', hrest⟩ | ⟨c', hch, hc2'⟩
    · by_cases ha : a' = []
      · rw [hx', ha, List.append_nil]
        exact hwhole_eq pre
      · rw [hx', ← List.append_assoc]
        exact ih a' c2 (pre ++ ch) hrest hc2 ha
    · by_cases hc' : c' = []
      · rw [hc', List.append_nil] at hch
        rw [← hch]
        exact hwhole_eq pre
      · exfalso
        have hc2ne : c2 ≠ [] := by
          rw [hc2']
          simp [hc']
        have hhead := SpaceRunes_head c2 hc2 hc2ne
        have hxlen : 0 < x.length := List.length_pos.mpr hx
        have hclen : 0 < c'.length := List.length_pos.mpr hc'
        have hchlen : ch.length = x.length + c'.length := by
          rw [hch, List.length_append]
        have hbyte : c2.getD 0 0 = ch.getD x.length 0 := by
          rw [hc2', hch, List.getD_append _ _ _ _ hclen,
            List.getD_append_right _ _ _ _ (le_refl _), Nat.sub_self]
        have hb := whole_rune_cont ch hne hwhole x.length (by omega) (by omega)
        rw [hbyte] at hhead
        omega

/-- The prefix that is followed by white space only and does not end with white
space is unique. -/
theorem trim_unique (a1 c1 a2 c2 : List Nat) (h : a1 ++ c1 = a2 ++ c2)
    (hc1 : SpaceRunes c1) (hc2 : SpaceRunes c2)
    (ha1 : EndsWithoutSpace a1) (ha2 : EndsWithoutSpace a2) : a1 = a2 := by
  unfold EndsWithoutSpace at ha1 ha2
  rcases List.append_eq_append_iff.mp h with ⟨a', h2, hc⟩ | ⟨c', h1, hc⟩
  · by_cases ha : a' = []
    · rw [h2, ha, List.append_nil]
    · have := SpaceRunes_cut c1 hc1 a' c2 a1 hc hc2 ha
      rw [← h2, ha2] at this
      cases this
  · by_cases hc' : c' = []
    · rw [h1, hc', List.append_nil]
    · have := SpaceRunes_cut c2 hc2 c' c1 a2 hc hc1 hc'
      rw [← h1, ha1] at this
      cases this

end Unigame

namespace Unigame

/-! ## `readPump` -/

/-- C7, as the code has it: for a chat message (the chat tag being an ASCII byte other
than white space) readPump relays the received buffer, tag included, with every
line-break byte replaced by a space and the trailing white space cut: the relayed
message starts with the tag, holds no line break, what is cut from the payload is white
space only (whole white-space runes, as Unicode defines them) and what is relayed does
not end with white space, which fixes the relayed bytes; the white space between the
tag and the text stays (the relayed payload is a prefix of the payload after
replacement).  A game-state message is relayed as received. -/
theorem readPump_chat_relay (chatType gameStateType : Nat) (c : Client) (payload : List Nat)
    (hlive : c.terminated = false) (hascii : chatType < RuneSelf)
    (hnsp : asciiSpace chatType = false) (hdistinct : gameStateType ≠ chatType) :
    (∃ kept cut,
      readPumpStep chatType gameStateType c (ReadResult.message (chatType :: payload))
        = PumpStep.broadcast (chatType :: kept) ∧
      Replace payload newline space = kept ++ cut ∧
      SpaceRunes cut ∧
      EndsWithoutSpace (chatType :: kept) ∧
      (∀ kept' cut', Replace payload newline space = kept' ++ cut' → SpaceRunes cut' →
        EndsWithoutSpace (chatType :: kept') → kept' = kept) ∧
      (∀ b ∈ cut, asciiSpace b = true ∨ RuneSelf ≤ b) ∧
      newline ∉ chatType :: kept ∧
      (∀ b, (chatType :: kept).getLast? = some b → asciiSpace b = false) ∧
      ((∀ b ∈ payload, b < RuneSelf) →
        kept = (Replace payload newline space).rdropWhile asciiSpace)) ∧
    readPumpStep chatType gameStateType c (ReadResult.message (gameStateType :: payload))
      = PumpStep.broadcast (gameStateType :: payload) := by
  have htag : chatType ≠ newline := by
    intro h
    rw [h] at hnsp
    exact absurd hnsp (by decide)
  constructor
  · have hrep : Replace (chatType :: payload) newline space
        = chatType :: Replace payload newline space := by
      rw [Replace_cons, if_neg htag]
    have hstep : readPumpStep chatType gameStateType c (ReadResult.message (chatType :: payload))
        = PumpStep.broadcast (TrimSpace (chatType :: Replace payload newline space)) := by
      unfold readPumpStep
      rw [hlive]
      simp only [Bool.false_eq_true, if_false, if_true, hrep]
    generalize hR : Replace payload newline space = R at hstep
    obtain ⟨n, hn1, hn2, htrim, hlast, hcut⟩ :=
      TrimSpace_tagged (chatType :: R) (List.cons_ne_nil _ _) hascii hnsp
    obtain ⟨e, he1, he2, htrim2, hrunes, hends⟩ :=
      TrimSpace_runes (chatType :: R) (List.cons_ne_nil _ _) hascii hnsp
    have hen : e = n := by
      have h1 := congrArg List.length htrim
      have h2 := congrArg List.length htrim2
      rw [List.length_take] at h1 h2
      omega
    subst hen
    obtain ⟨m, hm⟩ : ∃ m, e = m + 1 := ⟨e - 1, by omega⟩
    subst hm
    simp only [List.length_cons] at hn2
    rw [List.take_succ_cons] at htrim hends
    rw [List.drop_succ_cons] at hrunes
    have hkept : ∀ b, (chatType :: R.take m).getLast? = some b → asciiSpace b = false := by
      intro b hb
      have hlen : (chatType :: R.take m).length = m + 1 := by
        simp only [List.length_cons, List.length_take]
        omega
      rw [List.getLast?_eq_getElem?, hlen, Nat.add_sub_cancel] at hb
      have h2 : (chatType :: R)[m]? = some b := by
        rw [← hb, ← List.take_succ_cons, List.getElem?_take]
        simp
      have h3 : (chatType :: R).getD m 0 = b := by
        rw [List.getD_eq_getElem?_getD, h2]
        rfl
      rw [Nat.add_sub_cancel] at hlast
      rw [← h3]
      exact hlast
    have hcut' : ∀ b ∈ R.drop m, asciiSpace b = true ∨ RuneSelf ≤ b := by
      intro b hb
      obtain ⟨i, hi, hib⟩ := List.mem_iff_getElem.mp hb
      rw [List.getElem_drop] at hib
      rw [List.length_drop] at hi
      have h3 : (chatType :: R).getD (m + 1 + i) 0 = b := by
        rw [List.getD_eq_getElem?_getD]
        have : m + 1 + i = (m + i) + 1 := by omega
        rw [this, List.getElem?_cons_succ, List.getElem?_eq_getElem (by omega)]
        exact hib
      rw [← h3]
      exact hcut (m + 1 + i) (by omega) (by simp only [List.length_cons]; omega)
    refine ⟨R.take m, R.drop m, ?_, (List.take_append_drop m R).symm, hrunes, hends, ?_, hcut',
      ?_, hkept, ?_⟩
    · rw [hstep, htrim]
    · intro kept' cut' hsplit hcut2 hends2
      have heq : (chatType :: kept') ++ cut' = (chatType :: R.take m) ++ R.drop m := by
        rw [List.cons_append, List.cons_append, ← hsplit, List.take_append_drop]
      have := trim_unique _ _ _ _ heq hcut2 hrunes hends2 hends
      exact List.tail_eq_of_cons_eq this
    · intro h
      rcases List.mem_cons.mp h with h | h
      · exact htag h.symm
      · have := List.mem_of_mem_take h
        rw [← hR] at this
        exact newline_not_mem_Replace payload this
    · intro hall
      have hR' : ∀ b ∈ R, b < RuneSelf := by
        rw [← hR]
        exact Replace_ascii payload hall
      conv_rhs => rw [← List.take_append_drop m R]
      symm
      apply rdropWhile_append_of_all
      · intro x hx
        rcases hcut' x hx with h | h
        · exact h
        · have := hR' x (List.mem_of_mem_drop hx)
          omega
      · intro x hx
        apply hkept
        cases hk : R.take m with
        | nil =>
          rw [hk] at hx
          cases hx
        | cons y ys =>
          rw [hk] at hx
          rw [List.getLast?_cons_cons]
          exact hx
  · unfold readPumpStep
    rw [hlive]
    simp only [Bool.false_eq_true, if_false, if_neg hdistinct, ne_eq, not_true_eq_false]

/-- C7 at a concrete message: with chat tag 'C' and game-state tag 'G', the chat
message made of the tag, two spaces, the three bytes of a Japanese letter, a line
feed, a no-break space (two bytes) and a space is relayed as the tag, the two spaces
and the letter. -/
theorem readPump_chat_relay_witness :
    readPumpStep 67 71 ⟨0, 7, false, "QWxpY2U=:1"⟩
        (ReadResult.message (67 :: [32, 32, 0xE3, 0x81, 0x82, 10, 0xC2, 0xA0, 32]))
      = PumpStep.broadcast [67, 32, 32, 0xE3, 0x81, 0x82] ∧
    ∃ kept cut,
      readPumpStep 67 71 ⟨0, 7, false, "QWxpY2U=:1"⟩
          (ReadResult.message (67 :: [32, 32, 0xE3, 0x81, 0x82, 10, 0xC2, 0xA0, 32]))
        = PumpStep.broadcast (67 :: kept) ∧
      Replace [32, 32, 0xE3, 0x81, 0x82, 10, 0xC2, 0xA0, 32] newline space = kept ++ cut ∧
      SpaceRunes cut ∧
      EndsWithoutSpace (67 :: kept) ∧
      (∀ kept' cut',
        Replace [32, 32, 0xE3, 0x81, 0x82, 10, 0xC2, 0xA0, 32] newline space = kept' ++ cut' →
        SpaceRunes cut' → EndsWithoutSpace (67 :: kept') → kept' = kept) :=
  have h := (readPump_chat_relay 67 71 ⟨0, 7, false, "QWxpY2U=:1"⟩
    [32, 32, 0xE3, 0x81, 0x82, 10, 0xC2, 0xA0, 32] rfl (by decide) (by decide) (by decide)).1
  ⟨by decide,
    h.elim fun kept hk => hk.elim fun cut hc =>
      ⟨kept, cut, hc.1, hc.2.1, hc.2.2.1, hc.2.2.2.1, hc.2.2.2.2.1⟩⟩

/-- C7 as stated fails: the chat message "C hi" is relayed unchanged, its payload
" hi" still starting with a space; and whatever byte the chat tag is, the message made
of the tag and " hi" is not relayed as the tag followed by the trimmed payload "hi". -/
theorem readPump_chat_leading_space_kept :
    readPumpStep 67 71 ⟨0, 7, false, "QWxpY2U=:1"⟩ (ReadResult.message [67, 32, 104, 105])
        = PumpStep.broadcast [67, 32, 104, 105] ∧
      TrimSpace (Replace [32, 104, 105] newline space) = [104, 105] ∧
      (∀ chatType, chatType < 256 → ∀ gameStateType,
        readPumpStep chatType gameStateType ⟨0, 7, false, "QWxpY2U=:1"⟩
            (ReadResult.message [chatType, 32, 104, 105])
          ≠ PumpStep.broadcast
              (chatType :: TrimSpace (Replace [32, 104, 105] newline space))) := by
  refine ⟨by decide, by decide, ?_⟩
  have hall : ∀ c, c < 256 →
      TrimSpace (Replace [c, 32, 104, 105] newline space) ≠ [c, 104, 105] := by
    set_option maxRecDepth 100000 in decide
  intro chatType hlt gameStateType h
  have h2 : TrimSpace (Replace [32, 104, 105] newline space) = [104, 105] := by decide
  rw [h2] at h
  unfold readPumpStep at h
  simp only [Bool.false_eq_true, if_false, if_true, PumpStep.broadcast.injEq] at h
  exact hall chatType hlt h

end Unigame

namespace Unigame

/-! ## `isValidPlayer` -/

theorem Split_ne_nil (s : List Char) (sep : Char) : Split s sep ≠ [] := by
  cases s with
  | nil => simp [Split]
  | cons c cs =>
    unfold Split
    split
    · simp
    · split <;> simp

theorem Split_length (s : List Char) (sep : Char) :
    (Split s sep).length = s.count sep + 1 := by
  induction s with
  | nil => rfl
  | cons c cs ih =>
    unfold Split
    by_cases h : c = sep
    · rw [if_pos h, List.length_cons, ih, h, List.count_cons_self]
    · rw [if_neg h, List.count_cons_of_ne (Ne.symm h)]
      cases hs : Split cs sep with
      | nil => exact absurd hs (Split_ne_nil cs sep)
      | cons part parts =>
        rw [hs] at ih
        simp only [List.length_cons] at ih ⊢
        exact ih

/-- What `Atoi` accepts: an optional sign followed by one or more decimal digits. -/
theorem Atoi_some (s : List Char) (n : Int) (h : Atoi s = some n) :
    ∃ digits, digits ≠ [] ∧ digits.all Char.isDigit = true ∧
      (s = digits ∨ s = '-' :: digits ∨ s = '+' :: digits) ∧
      -(2 ^ 63) ≤ n ∧ n ≤ maxInt := by
  unfold Atoi at h
  simp only [] at h
  generalize hneg : (match s with
    | '-' :: _ => true
    | _ => false) = neg at h
  generalize hdig : (match s with
    | '-' :: rest => rest
    | '+' :: rest => rest
    | _ => s) = digits at h
  by_cases h1 : digits = []
  · rw [if_pos h1] at h
    cases h
  rw [if_neg h1] at h
  by_cases h2 : digits.all Char.isDigit = true
  · rw [if_pos h2] at h
    by_cases h3 : -(2 ^ 63) ≤ (if neg = true then -(digitsValue digits : Int)
        else (digitsValue digits : Int)) ∧
        (if neg = true then -(digitsValue digits : Int) else (digitsValue digits : Int)) ≤ maxInt
    · rw [if_pos h3] at h
      cases h
      refine ⟨digits, h1, h2, ?_, h3.1, h3.2⟩
      split at hdig
      · right; left; rw [hdig]
      · right; right; rw [hdig]
      · left; exact hdig
    · rw [if_neg h3] at h
      cases h
  · rw [if_neg h2] at h
    cases h

/-- C10, as the code has it: isValidPlayer rejects with (0, false) every token that does
not split on ':' into exactly two parts or whose second part Atoi refuses, but a
second part with a sign is accepted: "QWxpY2U=:-1" yields (4294967295, true), where
the claim has (0, false), and "QWxpY2U=:+1" yields (1, true). -/
theorem isValidPlayer_accepts_sign :
    isValidPlayer "QWxpY2U=:-1" = (4294967295, true) ∧
    isValidPlayer "QWxpY2U=:+1" = (1, true) ∧
    (∀ player, (isValidPlayer player).2 = false → isValidPlayer player = (0, false)) ∧
    (∀ player, (isValidPlayer player).2 = true →
      player.data.count ':' = 1 ∧
      ∃ digits, digits ≠ [] ∧ digits.all Char.isDigit = true ∧
        ((Split player.data ':').getD 1 [] = digits ∨
         (Split player.data ':').getD 1 [] = '-' :: digits ∨
         (Split player.data ':').getD 1 [] = '+' :: digits)) ∧
    isValidPlayer "" = (0, false) ∧
    isValidPlayer "QWxpY2U=" = (0, false) ∧
    isValidPlayer "QWxpY2U=:1:2" = (0, false) ∧
    isValidPlayer "QWxpY2U=:" = (0, false) ∧
    isValidPlayer "QWxpY2U=:one" = (0, false) ∧
    isValidPlayer "QWxpY2U=:12" = (12, true) := by
  refine ⟨by decide, by decide, ?_, ?_, by decide, by decide, by decide, by decide, by decide,
    by decide⟩
  · intro player h
    unfold isValidPlayer at h ⊢
    simp only [] at h ⊢
    split_ifs at h ⊢ with h1
    · rfl
    · cases hA : Atoi ((Split player.data ':').getD 1 []) with
      | none => rfl
      | some maybe =>
        rw [hA] at h
        cases h
  · intro player h
    unfold isValidPlayer at h
    simp only [] at h
    split_ifs at h with h1
    · have hlen : (Split player.data ':').length = 2 := by
        by_contra hcon
        exact h1 hcon
      rw [Split_length] at hlen
      refine ⟨by omega, ?_⟩
      cases hA : Atoi ((Split player.data ':').getD 1 []) with
      | none =>
        rw [hA] at h
        cases h
      | some maybe =>
        obtain ⟨digits, hd1, hd2, hd3, _⟩ := Atoi_some _ _ hA
        exact ⟨digits, hd1, hd2, hd3⟩

end Unigame

namespace Unigame

/-! ## The order number returned by `isValidPlayer` -/

theorem Split_of_not_mem (s : List Char) (sep : Char) (h : sep ∉ s) : Split s sep = [s] := by
  induction s with
  | nil => rfl
  | cons c cs ih =>
    simp only [List.mem_cons, not_or] at h
    unfold Split
    rw [if_neg (fun hc => h.1 hc.symm), ih h.2]

theorem Split_append_sep (a b : List Char) (sep : Char) (h : sep ∉ a) :
    Split (a ++ sep :: b) sep = a :: Split b sep := by
  induction a with
  | nil =>
    simp only [List.nil_append]
    conv_lhs => unfold Split
    rw [if_pos rfl]
  | cons c cs ih =>
    simp only [List.mem_cons, not_or] at h
    simp only [List.cons_append]
    conv_lhs => unfold Split
    rw [if_neg (fun hc => h.1 hc.symm), ih h.2]

theorem colon_not_mem_digits (digits : List Char) (hd : digits.all Char.isDigit = true) :
    ':' ∉ digits := by
  intro h
  have := List.all_eq_true.mp hd ':' h
  exact absurd this (by decide)

/-- The value `Atoi` gives a string of decimal digits. -/
theorem Atoi_digits (digits : List Char) (hne : digits ≠ [])
    (hd : digits.all Char.isDigit = true) :
    Atoi digits = if (digitsValue digits : Int) ≤ maxInt then some (digitsValue digits : Int)
      else none := by
  unfold Atoi
  simp only []
  generalize hneg : (match digits with
    | '-' :: _ => true
    | _ => false) = neg
  generalize hdig : (match digits with
    | '-' :: rest => rest
    | '+' :: rest => rest
    | _ => digits) = d
  have hminus : '-' ∉ digits := fun h =>
    absurd (List.all_eq_true.mp hd '-' h) (by decide)
  have hplus : '+' ∉ digits := fun h =>
    absurd (List.all_eq_true.mp hd '+' h) (by decide)
  have hn : neg = false := by
    split at hneg
    · exact absurd (List.mem_cons_self _ _) hminus
    · exact hneg.symm
  have hdd : d = digits := by
    split at hdig
    · exact absurd (List.mem_cons_self _ _) hminus
    · exact absurd (List.mem_cons_self _ _) hplus
    · exact hdig.symm
  subst hn hdd
  simp only [if_neg hne, hd, if_true, Bool.false_eq_true, if_false]
  have hnonneg : -(2 ^ 63 : Int) ≤ (digitsValue d : Int) := by
    have : (0 : Int) ≤ (digitsValue d : Int) := Int.ofNat_nonneg _
    omega
  by_cases hle : (digitsValue d : Int) ≤ maxInt
  · rw [if_pos ⟨hnonneg, hle⟩, if_pos hle]
  · rw [if_neg (fun h => hle h.2), if_neg hle]

/-- What `isValidPlayer` returns for a token `name:digits`. -/
theorem isValidPlayer_digits (name digits : List Char) (hname : ':' ∉ name)
    (hne : digits ≠ []) (hd : digits.all Char.isDigit = true) :
    isValidPlayer (String.mk (name ++ ':' :: digits))
      = if (digitsValue digits : Int) ≤ maxInt then (digitsValue digits % 2 ^ 32, true)
        else (0, false) := by
  have hsplit : Split (name ++ ':' :: digits) ':' = [name, digits] := by
    rw [Split_append_sep _ _ _ hname, Split_of_not_mem _ _ (colon_not_mem_digits digits hd)]
  unfold isValidPlayer
  simp only [hsplit, List.length_cons, List.length_nil, ne_eq, not_true_eq_false, if_false,
    List.getD_cons_succ, List.getD_cons_zero, Atoi_digits digits hne hd]
  by_cases hle : (digitsValue digits : Int) ≤ maxInt
  · simp only [if_pos hle]
    congr 1
  · simp only [if_neg hle]

end Unigame

namespace Unigame

/-- C11, as the code has it: for a token `name:digits` that is accepted, isValidPlayer
returns the integer the digits denote reduced modulo 2^32 (the conversion
`uint32(maybe)`), which is that integer only below 2^32: "QWxpY2U=:4294967297" yields
order number 1, the order number of "Qm9i:1", although the digits denote different
integers. -/
theorem isValidPlayer_order_wraps :
    isValidPlayer "QWxpY2U=:4294967297" = (1, true) ∧
    isValidPlayer "Qm9i:1" = (1, true) ∧
    digitsValue "4294967297".data ≠ digitsValue "1".data ∧
    (∀ name digits : List Char, ':' ∉ name → digits ≠ [] → digits.all Char.isDigit = true →
      (digitsValue digits : Int) ≤ maxInt →
      isValidPlayer (String.mk (name ++ ':' :: digits)) = (digitsValue digits % 2 ^ 32, true)) ∧
    (∀ name digits : List Char, ':' ∉ name → digits ≠ [] → digits.all Char.isDigit = true →
      digitsValue digits < 2 ^ 32 →
      isValidPlayer (String.mk (name ++ ':' :: digits)) = (digitsValue digits, true)) := by
  refine ⟨by decide, by decide, by decide, ?_, ?_⟩
  · intro name digits hname hne hd hle
    rw [isValidPlayer_digits name digits hname hne hd, if_pos hle]
  · intro name digits hname hne hd hlt
    have hle : (digitsValue digits : Int) ≤ maxInt := by
      unfold maxInt
      omega
    rw [isValidPlayer_digits name digits hname hne hd, if_pos hle, Nat.mod_eq_of_lt hlt]

/-- C12, as the code has it: isValidPlayer has no test for the order number 0:
"QWxpY2U=:0" yields (0, true), and so does "QWxpY2U=:4294967296"; an accepted token
`name:digits` gets order number 0 exactly when its digits denote a multiple of 2^32. -/
theorem isValidPlayer_accepts_zero :
    isValidPlayer "QWxpY2U=:0" = (0, true) ∧
    isValidPlayer "QWxpY2U=:4294967296" = (0, true) ∧
    (∀ name digits : List Char, ':' ∉ name → digits ≠ [] → digits.all Char.isDigit = true →
      (digitsValue digits : Int) ≤ maxInt →
      (isValidPlayer (String.mk (name ++ ':' :: digits)) = (0, true)
        ↔ digitsValue digits % 2 ^ 32 = 0)) := by
  refine ⟨by decide, by decide, ?_⟩
  intro name digits hname hne hd hle
  rw [isValidPlayer_digits name digits hname hne hd, if_pos hle]
  constructor
  · intro h
    exact congrArg Prod.fst h
  · intro h
    rw [h]

/-- C15, as the code has it: a data message of length zero makes the expression
`buffer[0]` of readPump panic, for every value of the tag constants; every message
of at least one byte is classified: relayed for the chat and game-state tags, the
pump returning for any other tag. -/
theorem readPump_empty_message_panics :
    (∀ (chatType gameStateType : Nat) (c : Client), c.terminated = false →
      readPumpStep chatType gameStateType c (ReadResult.message []) = PumpStep.panicked) ∧
    readPumpStep 67 71 ⟨0, 7, false, "QWxpY2U=:1"⟩ (ReadResult.message []) = PumpStep.panicked ∧
    (∀ (chatType gameStateType : Nat) (c : Client) (msgType : Nat) (rest : List Nat),
      c.terminated = false →
      (msgType = chatType →
        readPumpStep chatType gameStateType c (ReadResult.message (msgType :: rest))
          = PumpStep.broadcast (TrimSpace (Replace (msgType :: rest) newline space))) ∧
      (msgType ≠ chatType → msgType = gameStateType →
        readPumpStep chatType gameStateType c (ReadResult.message (msgType :: rest))
          = PumpStep.broadcast (msgType :: rest)) ∧
      (msgType ≠ chatType → msgType ≠ gameStateType →
        readPumpStep chatType gameStateType c (ReadResult.message (msgType :: rest))
          = PumpStep.returned)) ∧
    (∀ (chatType gameStateType : Nat) (c : Client),
      readPumpStep chatType gameStateType c ReadResult.error = PumpStep.returned) := by
  refine ⟨?_, by decide, ?_, ?_⟩
  · intro chatType gameStateType c hlive
    unfold readPumpStep
    rw [hlive]
    rfl
  · intro chatType gameStateType c msgType rest hlive
    refine ⟨fun h => ?_, fun h1 h2 => ?_, fun h1 h2 => ?_⟩
    · unfold readPumpStep
      rw [hlive]
      simp only [Bool.false_eq_true, if_false, if_pos h]
    · unfold readPumpStep
      rw [hlive]
      subst h2
      simp only [Bool.false_eq_true, if_false, if_neg h1, ne_eq, not_true_eq_false]
    · unfold readPumpStep
      rw [hlive]
      simp only [Bool.false_eq_true, if_false, if_neg h1, ne_eq, h2, not_false_eq_true, if_true]
  · intro chatType gameStateType c
    unfold readPumpStep
    split <;> rfl

end Unigame

namespace Unigame

/-! ## Sequences of calls -/

/-- C13, as the code has it: cleanup decides at every call anew whether a game is
incomplete.  A game that was complete (2 expected, 2 joined) and lost player 2 to the
player timeout at the 7th tick is incomplete from then on: its idle counter runs up
and the 28th tick removes it through the formation timeout, destroying the client of
player 1, who answered every ping.  Only a game that is complete at the start of a
call is spared by the formation check of that call. -/
theorem complete_game_times_out_after_player_loss :
    (∃ game, mapGet completeGames "cards_table-05" = some game ∧ game.NumPlayers ≠ 0 ∧
      game.NumPlayers ≤ (game.Players.length : Int)) ∧
    mapGet (tickOnePong^[7] completeGames) "cards_table-05"
      = some { lonelyGame with IdleCount := 0 } ∧
    mapGet (tickOnePong^[27] completeGames) "cards_table-05" = some lonelyGame ∧
    formationCheck lonelyGame
      = (none, [Event.unregister 6 11,
                Event.broadcastMessage 6 MsgType.lostPlayerType "QWxpY2U=:1",
                Event.close 11]) ∧
    mapGet (tickOnePong^[28] completeGames) "cards_table-05" = none ∧
    (∀ game : Game,
      ¬ (game.NumPlayers = 0 ∨ (game.Players.length : Int) < game.NumPlayers) →
      formationCheck game = (some { game with IdleCount := 0 }, [])) := by
  refine ⟨⟨_, rfl, by decide, by decide⟩, ?_, ?_, by decide, ?_, ?_⟩
  · set_option maxRecDepth 100000 in decide
  · set_option maxRecDepth 100000 in decide
  · set_option maxRecDepth 100000 in decide
  · intro game hcomplete
    unfold formationCheck
    rw [if_neg hcomplete]

/-! ### Well-formedness is kept by every call -/

theorem mapKeys_mapSet {κ β : Type} [DecidableEq κ] (m : List (κ × β)) (k : κ) (v : β) :
    mapKeys (mapSet m k v) = if k ∈ mapKeys m then mapKeys m else mapKeys m ++ [k] := by
  induction m with
  | nil => simp [mapSet, mapKeys]
  | cons e rest ih =>
    obtain ⟨k', v'⟩ := e
    unfold mapKeys at ih ⊢
    by_cases hk : k' = k
    · subst hk
      simp [mapSet]
    · have hk2 : ¬ k = k' := fun h => hk h.symm
      simp only [mapSet, if_neg hk, List.map_cons, List.mem_cons, hk2, false_or, ih]
      split <;> simp

theorem mapWF_mapSet {κ β : Type} [DecidableEq κ] (m : List (κ × β)) (k : κ) (v : β)
    (hwf : MapWF m) : MapWF (mapSet m k v) := by
  unfold MapWF at hwf ⊢
  rw [mapKeys_mapSet]
  split
  · exact hwf
  · rename_i hk
    rw [List.nodup_append]
    refine ⟨hwf, List.nodup_singleton k, ?_⟩
    intro a ha hb
    rw [List.mem_singleton] at hb
    subst hb
    exact hk ha

theorem mem_mapSet {κ β : Type} [DecidableEq κ] (m : List (κ × β)) (k : κ) (v : β)
    (e : κ × β) (he : e ∈ mapSet m k v) : e = (k, v) ∨ e ∈ m := by
  induction m with
  | nil =>
    simp only [mapSet, List.mem_singleton] at he
    exact Or.inl he
  | cons e' rest ih =>
    obtain ⟨k', v'⟩ := e'
    simp only [mapSet] at he
    split at he
    · rcases List.mem_cons.mp he with h | h
      · exact Or.inl h
      · exact Or.inr (List.mem_cons_of_mem _ h)
    · rcases List.mem_cons.mp he with h | h
      · exact Or.inr (by rw [h]; exact List.mem_cons_self _ _)
      · rcases ih h with h' | h'
        · exact Or.inl h'
        · exact Or.inr (List.mem_cons_of_mem _ h')

theorem mapSet_ne_nil {κ β : Type} [DecidableEq κ] (m : List (κ × β)) (k : κ) (v : β) :
    mapSet m k v ≠ [] := by
  cases m with
  | nil => simp [mapSet]
  | cons e rest =>
    obtain ⟨k', v'⟩ := e
    simp only [mapSet]
    split <;> simp

theorem mapKeys_filterMap_sublist {κ β γ : Type} (f : β → Option γ) (m : List (κ × β)) :
    (mapKeys (m.filterMap (fun e => (f e.2).map (fun v => (e.1, v))))).Sublist (mapKeys m) := by
  induction m with
  | nil => exact List.Sublist.slnil
  | cons e rest ih =>
    obtain ⟨k, v⟩ := e
    unfold mapKeys at ih ⊢
    cases hf : f v with
    | none =>
      simp only [List.filterMap_cons, hf, Option.map_none', List.map_cons]
      exact List.Sublist.cons _ ih
    | some w =>
      simp only [List.filterMap_cons, hf, Option.map_some', List.map_cons]
      exact List.Sublist.cons₂ _ ih

/-- A game that `cleanup` keeps: its Players are those the sweep leaves, at least one. -/
theorem cleanupGame_kept (game game' : Game) (h : (cleanupGame game).1 = some game') :
    game'.Players = (sweepPlayers game.Players).1 ∧ game'.Players ≠ [] ∧
      game'.NumPlayers = game.NumPlayers := by
  unfold cleanupGame at h
  rcases hf : formationCheck game with ⟨_ | g1, ev1⟩
  · rw [hf] at h
    cases h
  · have hsame : g1.Players = game.Players ∧ g1.NumPlayers = game.NumPlayers := by
      unfold formationCheck at hf
      split at hf
      · simp only [] at hf
        split at hf
        · cases hf
        · cases hf
          exact ⟨rfl, rfl⟩
      · cases hf
        exact ⟨rfl, rfl⟩
    rw [hf] at h
    simp only [] at h
    split at h
    · cases h
    · rename_i hne
      cases h
      refine ⟨by rw [hsame.1], ?_, hsame.2⟩
      intro hnil
      apply hne
      simp only [] at hnil
      rw [hnil]
      rfl

theorem registryWF_cleanup (st : Registry) (hwf : RegistryWF st) :
    RegistryWF { st with games := (cleanup st.games).1 } := by
  obtain ⟨hgames, hplayers⟩ := hwf
  constructor
  · show MapWF (cleanup st.games).1
    rw [cleanup_fst]
    exact List.Nodup.sublist
      (mapKeys_filterMap_sublist (fun g => (cleanupGame g).1) st.games) hgames
  · intro gameToken game' hmem
    have hmem' : (gameToken, game') ∈ (cleanup st.games).1 := hmem
    rw [cleanup_fst] at hmem'
    obtain ⟨⟨t, g⟩, hg, hfm⟩ := List.mem_filterMap.mp hmem'
    rcases hc : (cleanupGame g).1 with _ | g'
    · rw [hc] at hfm
      cases hfm
    · rw [hc] at hfm
      simp only [Option.map_some', Option.some.injEq, Prod.mk.injEq] at hfm
      obtain ⟨hp, hne, _⟩ := cleanupGame_kept g g' hc
      rw [← hfm.2]
      refine ⟨?_, hne⟩
      unfold MapWF
      rw [hp, sweepPlayers_fst]
      exact List.Nodup.sublist (mapKeys_filterMap_sublist sweptPlayer g.Players)
        (hplayers t g hg).1

theorem registryWF_ensure (st : Registry) (hwf : RegistryWF st)
    (gameToken playerToken : String) (playerOrder : Nat) (numPlayers : Int) :
    RegistryWF (ensureGameAndPlayer st gameToken playerToken playerOrder numPlayers).1 := by
  obtain ⟨hgames, hplayers⟩ := hwf
  have hgame : ∀ game : Game, MapWF game.Players →
      MapWF (ensuredGame game playerToken playerOrder numPlayers).Players ∧
        (ensuredGame game playerToken playerOrder numPlayers).Players ≠ [] := by
    intro game hg
    unfold ensuredGame
    split
    · exact ⟨mapWF_mapSet _ _ _ hg, mapSet_ne_nil _ _ _⟩
    · exact ⟨mapWF_mapSet _ _ _ hg, mapSet_ne_nil _ _ _⟩
  rw [ensure_eq]
  cases hm : mapGet st.games gameToken with
  | none =>
    refine ⟨mapWF_mapSet _ _ _ hgames, ?_⟩
    intro t g hmem
    rcases mem_mapSet _ _ _ _ hmem with h | h
    · cases h
      exact hgame _ (List.nodup_nil)
    · exact hplayers t g h
  | some game0 =>
    refine ⟨mapWF_mapSet _ _ _ hgames, ?_⟩
    intro t g hmem
    rcases mem_mapSet _ _ _ _ hmem with h | h
    · cases h
      exact hgame _ (hplayers _ _ (mem_of_mapGet _ _ _ hm)).1
    · exact hplayers t g h

theorem registryWF_runCalls (calls : List Call) (st : Registry) (hwf : RegistryWF st) :
    RegistryWF (runCalls st calls) := by
  induction calls generalizing st with
  | nil => exact hwf
  | cons call rest ih =>
    unfold runCalls
    rw [List.foldl_cons]
    apply ih
    cases call with
    | ensure gameToken playerToken playerOrder numPlayers =>
      exact registryWF_ensure st hwf _ _ _ _
    | cleanup => exact registryWF_cleanup st hwf

theorem registryWF_empty : RegistryWF emptyRegistry :=
  ⟨List.nodup_nil, fun _ _ h => by cases h⟩

theorem length_mapSet_of_absent {κ β : Type} [DecidableEq κ] (m : List (κ × β)) (k : κ) (v : β)
    (h : mapGet m k = none) : (mapSet m k v).length = m.length + 1 := by
  induction m with
  | nil => rfl
  | cons e rest ih =>
    obtain ⟨k', v'⟩ := e
    simp only [mapGet] at h
    by_cases hk : k' = k
    · rw [if_pos hk] at h
      cases h
    · rw [if_neg hk] at h
      simp only [mapSet, if_neg hk, List.length_cons, ih h]

/-- C14, as the code has it: ensureGameAndPlayer makes no test on the number of
Players: for a game it finds, it adds a Player under every order number the game does
not hold yet, whatever NumPlayers is.  From the empty registry, three calls with order
numbers 1, 2 and 3 and numPlayers 2 leave a game with NumPlayers 2 and three Players,
so the bound of at most NumPlayers entries does not hold in every reachable state. -/
theorem registry_players_exceed_numPlayers :
    (∃ game, mapGet (runCalls emptyRegistry threeAdmissions).games "cards_table-06" = some game ∧
      game.NumPlayers = 2 ∧ game.Players.length = 3) ∧
    ¬ (∀ (calls : List Call) (gameToken : String) (game : Game),
      mapGet (runCalls emptyRegistry calls).games gameToken = some game →
      game.NumPlayers ≠ 0 → (game.Players.length : Int) ≤ game.NumPlayers) ∧
    (∀ (st : Registry) (gameToken playerToken : String) (playerOrder : Nat) (numPlayers : Int)
      (game : Game), mapGet st.games gameToken = some game →
      mapGet game.Players playerOrder = none →
      (ensureGameAndPlayer st gameToken playerToken playerOrder numPlayers).2.1.1.Players.length
          = game.Players.length + 1 ∧
        mapGet (ensureGameAndPlayer st gameToken playerToken playerOrder numPlayers).1.games
            gameToken
          = some (ensureGameAndPlayer st gameToken playerToken playerOrder numPlayers).2.1.1) := by
  have hrun : mapGet (runCalls emptyRegistry threeAdmissions).games "cards_table-06"
      = some { Players := [(1, ⟨"QWxpY2U=:1", 0, none⟩), (2, ⟨"Qm9i:2", 0, none⟩),
                           (3, ⟨"Q2Fyb2w=:3", 0, none⟩)],
               IdleCount := 0, NumPlayers := 2, Hub := 0 } := by decide
  refine ⟨⟨_, hrun, rfl, rfl⟩, ?_, ?_⟩
  · intro hall
    have := hall threeAdmissions "cards_table-06" _ hrun (by decide)
    simp at this
  · intro st gameToken playerToken playerOrder numPlayers game hseen habsent
    rw [ensure_eq, hseen]
    simp only []
    refine ⟨?_, mapGet_mapSet_self _ _ _⟩
    unfold ensuredGame
    split <;> exact length_mapSet_of_absent _ _ _ habsent

end Unigame
